import Mathlib

/-!
# machotbd: Mach-O inspection and symbol classification

A shallow embedding of `machotbd.go` (package `main`): the helpers `cstring`,
`ver`, `magic_type`, `cpu_type`, the comparison `ByLength.Less`, the two
drivers `parse_macho` and `parse_fat`, and the dispatch of `macho_tbd`.

Conventions of the embedding.

* A Go `string` is a sequence of bytes, `GoString := List Byte`.
* A Go `[]byte` value returned by `Load.Raw()` is a `Slice`: its visible
  elements (`len`) and the elements between `len` and `cap`.
* A run-time panic of the Go program (slice bounds out of range, nil
  dereference) is the outcome `none`; a normal return is `some _`.
* `uint32` values are natural numbers; every one that occurs is decoded from
  four bytes and therefore below `2 ^ 32`.
* The program calls `sort.Sort` on the re-export list. Go documents what this
  call achieves, not the order it leaves among elements that compare equal, and
  the algorithm has changed between releases; `parse_macho` therefore takes the
  procedure as its first argument, and `sort.SortSpec` is its documented contract.
* The program opens its input with `macho.Open` and `macho.OpenFat`. Their test of
  the magic number is modelled from `debug/macho`; the rest of their decoding is
  a parameter, and `macho_tbd` takes what they return.
* Logging (`stdout.Println`) has no influence on the returned values and is
  left out; so is the local `offset` of `parse_macho`, which is written but
  never read.
-/

namespace Machotbd

/-! ## Bytes and strings -/

/-- One octet. -/
abbrev Byte := Fin 256

/-- A Go string: an immutable sequence of bytes. -/
abbrev GoString := List Byte

/-- The bytes (UTF-8) of a string literal of the Go source. -/
def str (s : String) : GoString :=
  s.toList.flatMap (fun c => (String.utf8EncodeChar c).map (fun b => b.val))

/-- Go's `<=` on strings: byte-wise lexicographic comparison, a proper prefix
comes first. -/
def strLe : GoString → GoString → Bool
  | [], _ => true
  | _ :: _, [] => false
  | a :: as, b :: bs => if a < b then true else if b < a then false else strLe as bs

/-- The order `a <= b` of Go strings as a proposition. -/
def StrLE (a b : GoString) : Prop := strLe a b = true

instance StrLE.decidableRel : DecidableRel StrLE := fun a b =>
  inferInstanceAs (Decidable (strLe a b = true))

/-- The decimal digits of `n`, most significant first, in front of `ds`; `fuel`
bounds their number. -/
def decimalDigits : Nat → Nat → List Byte → List Byte
  | 0, _, ds => ds
  | fuel + 1, n, ds =>
    if n / 10 = 0 then Fin.ofNat (48 + n % 10) :: ds
    else decimalDigits fuel (n / 10) (Fin.ofNat (48 + n % 10) :: ds)

/-- The verb `%d` of `fmt.Sprintf` on an unsigned integer: its decimal digits,
most significant first, without padding. -/
def fmt_d (n : Nat) : GoString := decimalDigits (n + 1) n []

/-- The number a string of decimal digits denotes. -/
def decimalValue (s : GoString) : Nat := s.foldl (fun acc c => 10 * acc + (c.val - 48)) 0

/-! ## Library functions used by the program -/

/-- The function `strings.Contains(s, substr)`: `substr` occurs in `s` at some position. -/
def strings.Contains : GoString → GoString → Bool
  | [], substr => substr.isPrefixOf []
  | c :: t, substr => substr.isPrefixOf (c :: t) || strings.Contains t substr

/-- The scan of `strings.Replace(s, old, new, -1)` for a non-empty `old`:
the first argument counts the bytes of a matched occurrence still to be skipped. -/
def strings.replaceFrom (old new : GoString) : Nat → GoString → GoString
  | _, [] => []
  | k + 1, _ :: t => strings.replaceFrom old new k t
  | 0, c :: t =>
    if old ≠ [] ∧ old.isPrefixOf (c :: t) = true then
      new ++ strings.replaceFrom old new (old.length - 1) t
    else c :: strings.replaceFrom old new 0 t

/-- The call `strings.Replace(s, old, new, -1)`: every non-overlapping occurrence of
`old`, found from left to right, is replaced by `new`. Both calls in the program
pass a non-empty literal for `old`. -/
def strings.Replace (s old new : GoString) : GoString :=
  strings.replaceFrom old new 0 s

/-- The function `sort.Strings(x)`: sorts in increasing order. The order on strings is total
and two strings that compare equal are the same string, so the result does not
depend on the sorting algorithm (see `sort_Strings_unique`). -/
def sort.Strings (x : List GoString) : List GoString :=
  List.insertionSort StrLE x

/-- A procedure playing the part of `sort.Sort`: from the `Less` of the
`sort.Interface` (as a comparison of elements) and the slice, the slice after
the call. -/
abbrev SortAlgo := (GoString → GoString → Bool) → List GoString → List GoString

/-- What Go documents of the `Less` method: a strict weak ordering (irreflexive,
transitive, and incomparability is transitive). -/
structure sort.IsLess (less : GoString → GoString → Bool) : Prop where
  irrefl : ∀ a, less a a = false
  trans : ∀ a b c, less a b = true → less b c = true → less a c = true
  incomp : ∀ a b c, less a b = false → less b c = false → less a c = false

/-- The documented contract of `sort.Sort`: the elements are rearranged so that
no element is `Less` than one before it. "The sort is not guaranteed to be
stable": nothing is said about the order of elements neither of which is `Less`
than the other. -/
def sort.SortSpec (srt : SortAlgo) : Prop :=
  ∀ less, sort.IsLess less → ∀ l : List GoString,
    (srt less l).Perm l ∧ (srt less l).Pairwise (fun a b => less b a = false)

/-- The byte orders of `encoding/binary`. -/
inductive binary.ByteOrder where
  | LittleEndian
  | BigEndian
  deriving DecidableEq, Repr

/-- The method `bo.Uint32(b)` on a four-byte slice. -/
def binary.ByteOrder.Uint32 (bo : binary.ByteOrder) (b : List Byte) : Nat :=
  match bo with
  | .LittleEndian =>
    (b.getD 0 0).val + (b.getD 1 0).val * 2 ^ 8 + (b.getD 2 0).val * 2 ^ 16
      + (b.getD 3 0).val * 2 ^ 24
  | .BigEndian =>
    (b.getD 3 0).val + (b.getD 2 0).val * 2 ^ 8 + (b.getD 1 0).val * 2 ^ 16
      + (b.getD 0 0).val * 2 ^ 24

/-! ## Data model -/

/-- A Go `[]byte`: the `len` visible elements and the elements up to `cap`. -/
structure Slice where
  elems : List Byte
  spare : List Byte := []
  deriving DecidableEq, Repr

/-- The type `macho.Symbol`, the fields the program reads. -/
structure macho.Symbol where
  Name : GoString
  Type_ : Nat
  deriving DecidableEq, Repr

/-- The type `macho.Load`: a load command, known through `Raw()`. -/
structure macho.Load where
  Raw : Slice
  deriving DecidableEq, Repr

/-- The type `macho.File`, the fields the program reads. `Symtab` is a pointer in Go:
`none` is the nil pointer of an image without a symbol-table command. -/
structure macho.File where
  Magic : Nat
  Cpu : Nat
  SubCpu : Nat
  ByteOrder : binary.ByteOrder
  Loads : List macho.Load
  Symtab : Option (List macho.Symbol)
  deriving DecidableEq, Repr

/-- The type `macho.FatArch`: one slice of a universal binary. -/
structure macho.FatArch where
  File : macho.File
  deriving DecidableEq, Repr

/-- The type `macho.FatFile`: the slices of a universal binary. -/
structure macho.FatFile where
  Arches : List macho.FatArch
  deriving DecidableEq, Repr

def macho.Magic32 : Nat := 0xfeedface
def macho.Magic64 : Nat := 0xfeedfacf
def macho.MagicFat : Nat := 0xcafebabe
def macho.Cpu386 : Nat := 7
def macho.CpuAmd64 : Nat := 7 ||| 0x01000000
def macho.CpuArm : Nat := 12

/-- The type `tbd.Arch`: the record of one architecture. -/
structure tbd.Arch where
  Name : GoString := []
  Symbols : List GoString := []
  Classes : List GoString := []
  Ivars : List GoString := []
  Weak : List GoString := []
  ReExports : List GoString := []
  deriving DecidableEq, Repr

/-- The type `tbd.Tbd_list`: the descriptor of the whole binary. -/
structure tbd.Tbd_list where
  Archs : List tbd.Arch := []
  Install_name : GoString := []
  Version : GoString := []
  CompVersion : GoString := []
  Platform : GoString := []
  deriving DecidableEq, Repr

/-! ## Constants of the program -/

def arm64 : Nat := 16777228
def N_TYPE : Nat := 0x0e
def N_SECT : Nat := 0xe
def N_EXT : Nat := 0x01
def LoadDylibIdCmd : Nat := 0xd
def fileHeaderSize32 : Nat := 7 * 4
def fileHeaderSize64 : Nat := 8 * 4
def ReExportDylibCmd : Nat := 0x1f ||| 0x80000000

/-- The type `DylibIdCmd_`: six `uint32` fields, 24 bytes. -/
structure DylibIdCmd_ where
  Cmd : Nat
  Len : Nat
  Name : Nat
  Time : Nat
  CurrentVersion : Nat
  CompatVersion : Nat
  deriving DecidableEq, Repr

/-- The call `binary.Read(bytes.NewReader(cmddat), bo, &hdr)` for `hdr` of type
`DylibIdCmd_`: fails (`none`) when fewer than 24 bytes are available. -/
def binary.Read (bo : binary.ByteOrder) (cmddat : List Byte) : Option DylibIdCmd_ :=
  if cmddat.length < 24 then none
  else some
    { Cmd := bo.Uint32 (cmddat.take 4)
      Len := bo.Uint32 ((cmddat.drop 4).take 4)
      Name := bo.Uint32 ((cmddat.drop 8).take 4)
      Time := bo.Uint32 ((cmddat.drop 12).take 4)
      CurrentVersion := bo.Uint32 ((cmddat.drop 16).take 4)
      CompatVersion := bo.Uint32 ((cmddat.drop 20).take 4) }

/-! ## The functions of `machotbd.go` -/

/-- The method `ByLength.Less`: the element at `i` is longer than the element at `j`. -/
def ByLength.Less (si sj : GoString) : Bool := decide (si.length > sj.length)

/-- The function `cstring`: the bytes before the first zero byte. -/
def cstring (b : List Byte) : GoString := b.takeWhile (fun c => c != 0)

/-- The function `ver`: `fmt.Sprintf("%d.%d.%d", raw_ver >> 16, (raw_ver >> 8) & 0xff, raw_ver & 0xff)`. -/
def ver (raw_ver : Nat) : GoString :=
  fmt_d (raw_ver >>> 16) ++ str "." ++ fmt_d ((raw_ver >>> 8) &&& 0xff) ++ str "."
    ++ fmt_d (raw_ver &&& 0xff)

/-- The function `magic_type`: 32, 64, 1 (fat) or 0 (unrecognized). -/
def magic_type (magic : Nat) : Nat :=
  if magic = macho.Magic32 then 32
  else if magic = macho.Magic64 then 64
  else if magic = macho.MagicFat then 1
  else 0

/-- The function `cpu_type`: the name of the architecture, or `uns`. -/
def cpu_type (f : macho.File) : GoString :=
  if f.Cpu = macho.Cpu386 then str "i386"
  else if f.Cpu = macho.CpuAmd64 then str "x86_64"
  else if f.Cpu = macho.CpuArm ∧ f.SubCpu = 6 then str "armv6"
  else if f.Cpu = macho.CpuArm ∧ f.SubCpu = 9 then str "armv7"
  else if f.Cpu = macho.CpuArm ∧ f.SubCpu = 11 then str "armv7s"
  else if f.Cpu = arm64 then str "arm64"
  else str "uns"

/-- The four lists filled by the loop over the symbol table. -/
structure SymLists where
  real_symbols : List GoString := []
  real_classes : List GoString := []
  real_ivars : List GoString := []
  real_weak : List GoString := []
  deriving DecidableEq, Repr

/-- The body of `for _, v := range symtab.Syms` in `parse_macho`. -/
def classifyStep (acc : SymLists) (v : macho.Symbol) : SymLists :=
  if v.Type_ &&& N_TYPE = N_SECT ∧ v.Type_ &&& N_EXT = N_EXT then
    if v.Name ≠ [] then
      if strings.Contains v.Name (str "_OBJC_CLASS") = true then
        { acc with real_classes :=
            acc.real_classes ++ [strings.Replace v.Name (str "_OBJC_CLASS_$") []] }
      else if strings.Contains v.Name (str "_OBJC_IVAR") = true then
        { acc with real_ivars :=
            acc.real_ivars ++ [strings.Replace v.Name (str "_OBJC_IVAR_$") []] }
      else if strings.Contains v.Name (str "_OBJC_METACLASS") = true then acc
      else if v.Type_ &&& N_SECT = N_SECT then
        { acc with real_symbols := acc.real_symbols ++ [v.Name] }
      else acc
    else acc
  else acc

/-- The loop over the symbol table, from the four empty lists. -/
def classify (syms : List macho.Symbol) : SymLists :=
  syms.foldl classifyStep {}

/-- The variables updated by the loop over the load commands. -/
structure WalkState where
  version : GoString
  compatibility_version : GoString
  path : GoString
  real_reexports : List GoString
  deriving DecidableEq, Repr

/-- The values of the variables before the loop over the load commands. -/
def WalkState.init : WalkState :=
  { version := str "275.0", compatibility_version := [], path := [], real_reexports := [] }

/-- The body of `for _, v := range f.Loads` in `parse_macho`; `none` is a
panic of one of the slice expressions `dat[0:4]`, `dat[4:8]`, `dat[0:siz]`,
`dat[siz:]`, `cmddat[hdr.Name:]`. -/
def walkStep (bo : binary.ByteOrder) (st : WalkState) (v : macho.Load) : Option WalkState :=
  let dat := v.Raw
  let full := dat.elems ++ dat.spare
  if full.length < 8 then none
  else
    let cmd := bo.Uint32 (full.take 4)
    let siz := bo.Uint32 ((full.drop 4).take 4)
    if dat.elems.length < siz then none
    else
      let cmddat := dat.elems.take siz
      if cmd = LoadDylibIdCmd then
        match binary.Read bo cmddat with
        | none => some st
        | some hdr =>
          if cmddat.length < hdr.Name then none
          else some
            { st with
              path := cstring (cmddat.drop hdr.Name)
              version := ver hdr.CurrentVersion
              compatibility_version := ver hdr.CompatVersion }
      else if cmd = ReExportDylibCmd then
        match binary.Read bo cmddat with
        | none => some st
        | some hdr =>
          if cmddat.length < hdr.Name then none
          else
            let path := cstring (cmddat.drop hdr.Name)
            some { st with path := path, real_reexports := st.real_reexports ++ [path] }
      else some st

/-- The loop over the load commands. -/
def walk (bo : binary.ByteOrder) : List macho.Load → WalkState → Option WalkState
  | [], st => some st
  | v :: rest, st =>
    match walkStep bo st v with
    | none => none
    | some st' => walk bo rest st'

/-- What `parse_macho` returns: the record, the list `{version, path,
compatibility_version}` and the error (`none` is Go's `nil`). -/
structure ParseResult where
  arch : tbd.Arch
  info : List GoString
  err : Option GoString
  deriving DecidableEq, Repr

/-- The function `parse_macho`; `sort_Sort` is the implementation of `sort.Sort` the program
is linked with. -/
def parse_macho (sort_Sort : SortAlgo) (f : macho.File) : Option ParseResult :=
  let cput := cpu_type f
  if cput = str "uns" then
    some { arch := {}, info := [], err := some (str "Unsupported arch") }
  else
    match f.Symtab with
    | none => none
    | some syms =>
      let c := classify syms
      match walk f.ByteOrder f.Loads WalkState.init with
      | none => none
      | some w =>
        let real_reexports :=
          if w.real_reexports.length > 0 then sort_Sort ByLength.Less w.real_reexports
          else w.real_reexports
        some
          { arch :=
              { Name := cput
                Symbols := sort.Strings c.real_symbols
                Classes := sort.Strings c.real_classes
                Ivars := sort.Strings c.real_ivars
                Weak := sort.Strings c.real_weak
                ReExports := real_reexports }
            info := [w.version, w.path, w.compatibility_version]
            err := none }

/-- The loop `for _, v := range f.Arches` of `parse_fat`. -/
def parse_fat_loop (sort_Sort : SortAlgo) :
    List macho.FatArch → tbd.Tbd_list → Option tbd.Tbd_list
  | [], _ret_sym => some _ret_sym
  | v :: rest, _ret_sym =>
    match parse_macho sort_Sort v.File with
    | none => none
    | some r =>
      match r.err with
      | some _ => parse_fat_loop sort_Sort rest _ret_sym
      | none =>
        match r.info[1]?, r.info[0]?, r.info[2]? with
        | some i1, some i0, some i2 =>
          parse_fat_loop sort_Sort rest
            { _ret_sym with
              Archs := _ret_sym.Archs ++ [r.arch]
              Install_name := i1
              Version := i0
              CompVersion := i2 }
        | _, _, _ => none

/-- The function `parse_fat`. -/
def parse_fat (sort_Sort : SortAlgo) (f : macho.FatFile) : Option tbd.Tbd_list :=
  parse_fat_loop sort_Sort f.Arches {}

/-- The function `macho.Open` of `debug/macho` as far as the magic number goes.
`NewFile` reads the first four bytes of the image as `be` (big-endian) and `le`
(little-endian), `switch Magic32 &^ 1 { case be &^ 1: ... case le &^ 1: ...
default: return nil, &FormatError{0, "invalid magic number", nil} }`, and keeps
the matching byte order and magic in the file; `decode` stands for the rest of
`NewFile` (header, load commands, symbol table), which can fail as well. -/
def macho.Open (decode : binary.ByteOrder → List Byte → Option macho.File)
    (image : List Byte) : Option macho.File :=
  if image.length < 4 then none
  else
    let be := binary.ByteOrder.BigEndian.Uint32 (image.take 4)
    let le := binary.ByteOrder.LittleEndian.Uint32 (image.take 4)
    if macho.Magic32 &&& 0xfffffffe = be &&& 0xfffffffe then
      (decode .BigEndian image).map (fun f => { f with ByteOrder := .BigEndian, Magic := be })
    else if macho.Magic32 &&& 0xfffffffe = le &&& 0xfffffffe then
      (decode .LittleEndian image).map
        (fun f => { f with ByteOrder := .LittleEndian, Magic := le })
    else none

/-- The function `macho.OpenFat` of `debug/macho` as far as the magic number
goes. `NewFatFile` reads the first four bytes big-endian and returns an error
(`ErrNotFat` or a `FormatError`) unless they are `MagicFat`; `decodeFat` stands
for the rest of `NewFatFile`. -/
def macho.OpenFat (decodeFat : List Byte → Option macho.FatFile) (image : List Byte) :
    Option macho.FatFile :=
  if image.length < 4 then none
  else if binary.ByteOrder.BigEndian.Uint32 (image.take 4) ≠ macho.MagicFat then none
  else decodeFat image

/-- How `macho_tbd` ends before it calls the serializer: the process exits with
a status, or the descriptor is handed to `tbd.Tbd_form`. -/
inductive Outcome where
  | exit (status : Nat)
  | descriptor (list : tbd.Tbd_list)
  deriving DecidableEq, Repr

/-- The function `macho_tbd` up to the call of `tbd.Tbd_form`. The platform flag
is `plt`; `opened` is what `macho.Open` returns for the file (`none` when it
returns an error) and `openedFat` what `macho.OpenFat` returns, which is
consulted only when `macho.Open` has failed. -/
def macho_tbd (sort_Sort : SortAlgo) (plt : GoString) (args : List GoString)
    (opened : Option macho.File) (openedFat : Option macho.FatFile) : Option Outcome :=
  if ¬ args.length > 0 then some (.exit 1)
  else if plt ≠ str "ios" ∧ plt ≠ str "macosx" then some (.exit 1)
  else
    match opened with
    | some macho_file =>
      match parse_macho sort_Sort macho_file with
      | none => none
      | some r =>
        match r.err with
        | some _ => some (.descriptor { Platform := plt })
        | none =>
          match r.info[1]?, r.info[0]?, r.info[2]? with
          | some i1, some i0, some i2 =>
            some (.descriptor
              { Archs := [r.arch], Install_name := i1, Version := i0, CompVersion := i2,
                Platform := plt })
          | _, _, _ => none
    | none =>
      match openedFat with
      | none => some (.exit 1)
      | some macho_fat_file =>
        match parse_fat sort_Sort macho_fat_file with
        | none => none
        | some _list => some (.descriptor { _list with Platform := plt })

/-! ## Notions of the specification -/

/-- The kind tag of a load command: its first four bytes, in the byte order of the slice. -/
def cmdKind (bo : binary.ByteOrder) (v : macho.Load) : Nat := bo.Uint32 (v.Raw.elems.take 4)

/-- The declared length of a load command: bytes 4..7. -/
def cmdLen (bo : binary.ByteOrder) (v : macho.Load) : Nat :=
  bo.Uint32 ((v.Raw.elems.drop 4).take 4)

/-- A decodable command of kind `kind`: it carries that tag and its declared
length holds the 24-byte fixed header and does not exceed its bytes. -/
def isDecodable (bo : binary.ByteOrder) (kind : Nat) (v : macho.Load) : Bool :=
  decide (cmdKind bo v = kind ∧ 24 ≤ cmdLen bo v ∧ cmdLen bo v ≤ v.Raw.elems.length)

/-- The name-offset field: header bytes 8..11. -/
def hdrName (bo : binary.ByteOrder) (v : macho.Load) : Nat :=
  bo.Uint32 ((v.Raw.elems.drop 8).take 4)

/-- The current-version field: header bytes 16..19. -/
def hdrCurrentVersion (bo : binary.ByteOrder) (v : macho.Load) : Nat :=
  bo.Uint32 ((v.Raw.elems.drop 16).take 4)

/-- The compatibility-version field: header bytes 20..23. -/
def hdrCompatVersion (bo : binary.ByteOrder) (v : macho.Load) : Nat :=
  bo.Uint32 ((v.Raw.elems.drop 20).take 4)

/-- The null-terminated string at the name-offset of a command, within its
declared length. -/
def cmdNameString (bo : binary.ByteOrder) (v : macho.Load) : GoString :=
  cstring ((v.Raw.elems.take (cmdLen bo v)).drop (hdrName bo v))

/-- A load command as the Mach-O reader hands it over: at least the eight bytes
of kind and length, a declared length within its bytes and, when it is a
dylib-identification or re-export command with a full header, a name offset
within the declared length. -/
def wellFormed (bo : binary.ByteOrder) (v : macho.Load) : Bool :=
  decide (8 ≤ v.Raw.elems.length ∧ cmdLen bo v ≤ v.Raw.elems.length ∧
    ((cmdKind bo v = LoadDylibIdCmd ∨ cmdKind bo v = ReExportDylibCmd) →
      24 ≤ cmdLen bo v → hdrName bo v ≤ cmdLen bo v))

/-- The last decodable dylib-identification command of a list, if there is one. -/
def lastDylibId (bo : binary.ByteOrder) (loads : List macho.Load) : Option macho.Load :=
  (loads.filter (isDecodable bo LoadDylibIdCmd)).getLast?

/-- The names of the decodable re-export-dylib commands, in the order of the commands. -/
def reexportNames (bo : binary.ByteOrder) (loads : List macho.Load) : List GoString :=
  (loads.filter (isDecodable bo ReExportDylibCmd)).map (cmdNameString bo)

/-- The magic number of an image is none of the recognized values: in whichever
byte order its first four bytes are read, `magic_type` classifies the number as
unrecognized. -/
def magicUnrecognized (image : List Byte) : Prop :=
  ∀ bo : binary.ByteOrder, magic_type (bo.Uint32 (image.take 4)) = 0

/-- Bits `lo` to `lo + width - 1` of `V`. -/
def bitField (V lo width : Nat) : Nat := V / 2 ^ lo % 2 ^ width

/-- The `MAJOR.MINOR.PATCH` rendering of a raw version in the words of the
specification: MAJOR is bits 16-31, MINOR bits 8-15, PATCH bits 0-7, each in decimal. -/
def renderVersion (V : Nat) : GoString :=
  fmt_d (bitField V 16 16) ++ str "." ++ fmt_d (bitField V 8 8) ++ str "."
    ++ fmt_d (bitField V 0 8)

/-- Paths of equal length keep their encounter order: for every length, the
paths of that length are the same sequence in `res` as in `enc`. -/
def KeepsEncounterOrder (enc res : List GoString) : Prop :=
  ∀ n : Nat, res.filter (fun s => decide (s.length = n)) = enc.filter (fun s => decide (s.length = n))

/-- The conditions under which the classifier looks at a symbol at all, in the
words of the specification: defined in a section, external, non-empty name. -/
def isConsidered (v : macho.Symbol) : Bool :=
  decide (v.Type_ &&& 0x0e = 0x0e ∧ v.Type_ &&& 0x01 = 0x01 ∧ v.Name ≠ [])

/-- The architecture of a slice is one of the supported ones. -/
def isSupported (v : macho.FatArch) : Bool := decide (cpu_type v.File ≠ str "uns")

/-- The records `parse_macho` produces for the supported slices, in the order of
the slices. -/
def supportedRecords (srt : SortAlgo) (arches : List macho.FatArch) : List tbd.Arch :=
  (arches.filter isSupported).filterMap (fun v => (parse_macho srt v.File).map (fun r => r.arch))

/-- A slice is parsed successfully: `parse_macho` returns for it with a nil error. -/
def parsedOk (srt : SortAlgo) (v : macho.FatArch) : Bool :=
  match parse_macho srt v.File with
  | some r => r.err.isNone
  | none => false

/-- The last successfully parsed slice in iteration order, if there is one. -/
def lastParsed (srt : SortAlgo) (arches : List macho.FatArch) : Option macho.FatArch :=
  (arches.filter (parsedOk srt)).getLast?

/-- The architecture name of a (CPU type, CPU subtype) pair in the words of the
specification; `uns` is the unsupported marker. -/
def archName (cpu sub : Nat) : GoString :=
  if cpu = 7 then str "i386"
  else if cpu = 0x01000007 then str "x86_64"
  else if cpu = 16777228 then str "arm64"
  else if cpu = 12 ∧ sub = 6 then str "armv6"
  else if cpu = 12 ∧ sub = 9 then str "armv7"
  else if cpu = 12 ∧ sub = 11 then str "armv7s"
  else str "uns"

/-- A pair is supported when it is one of the six listed ones. -/
def isSupportedPair (cpu sub : Nat) : Bool :=
  decide (cpu = 7 ∨ cpu = 0x01000007 ∨ cpu = 16777228 ∨
    (cpu = 12 ∧ (sub = 6 ∨ sub = 9 ∨ sub = 11)))

/-- A considered symbol that the classifier discards as a metaclass: its name
contains `_OBJC_METACLASS` but neither `_OBJC_CLASS` nor `_OBJC_IVAR`. -/
def isDiscardedMetaclass (v : macho.Symbol) : Bool :=
  strings.Contains v.Name (str "_OBJC_METACLASS") &&
    !strings.Contains v.Name (str "_OBJC_CLASS") &&
    !strings.Contains v.Name (str "_OBJC_IVAR")

/-! ## Sorting procedures that meet the contract of `sort.Sort` -/

/-- Insertion sort by `less`: an element moves left past the elements it is
`less` than, as `insertionSort` of Go's package `sort` does. -/
def sortInsertion : SortAlgo := fun less l =>
  List.insertionSort (fun a b => less b a = false) l

/-- The method `data.Swap(i, j)` of `ByLength`: `s[i], s[j] = s[j], s[i]`. -/
def ByLength.Swap (s : List GoString) (i j : Nat) : List GoString :=
  (s.set i (s.getD j [])).set j (s.getD i [])

/-- The pass `for i := a + 6; i < b; i++ { if data.Less(i, i-6) { data.Swap(i, i-6) } }`:
`k` iterations from index `i`. -/
def shellPass (less : GoString → GoString → Bool) : Nat → Nat → List GoString → List GoString
  | _, 0, s => s
  | i, k + 1, s =>
    shellPass less (i + 1) k
      (if less (s.getD i []) (s.getD (i - 6) []) = true then ByLength.Swap s i (i - 6) else s)

/-- The path `sort.Sort` takes on a slice of at most 12 elements in Go up to
release 1.18 (since the rewrite of `Sort` announced with release 1.6):
`quickSort` skips its loop, makes one Shell pass with gap 6 and ends with
insertion sort. On a longer slice the same two steps still sort. -/
def sortShell : SortAlgo := fun less s =>
  sortInsertion less (shellPass less 6 (s.length - 6) s)

/-! ## Concrete inputs -/

/-- The little-endian encoding of a `uint32`. -/
def le32 (n : Nat) : List Byte :=
  [Fin.ofNat n, Fin.ofNat (n / 2 ^ 8), Fin.ofNat (n / 2 ^ 16), Fin.ofNat (n / 2 ^ 24)]

/-- A little-endian load command of kind `cmd` with the layout of `DylibIdCmd_`
(timestamp 0), the name at offset 24, zero-terminated. -/
def mkDylibCmd (cmd cur compat : Nat) (name : GoString) : macho.Load :=
  { Raw :=
      { elems := le32 cmd ++ le32 (24 + name.length + 1) ++ le32 24 ++ le32 0 ++ le32 cur
          ++ le32 compat ++ name ++ [0] } }

/-- A little-endian load command of kind `cmd` of eight bytes: the header only. -/
def mkPlainCmd (cmd : Nat) : macho.Load :=
  { Raw := { elems := le32 cmd ++ le32 8 } }

/-- A 64-bit x86_64 image with the given load commands and symbols. -/
def mkFile (loads : List macho.Load) (syms : List macho.Symbol) : macho.File :=
  { Magic := macho.Magic64, Cpu := macho.CpuAmd64, SubCpu := 3,
    ByteOrder := .LittleEndian, Loads := loads, Symtab := some syms }

/-- A library: an identification command (version 2.48.0, compatibility 1.0.0),
a segment command, one re-export, and five symbols of which one is local. -/
def exFile : macho.File :=
  mkFile
    [mkPlainCmd 0x19, mkDylibCmd LoadDylibIdCmd 0x00023000 0x00010000 (str "/usr/lib/libx.dylib"),
      mkDylibCmd ReExportDylibCmd 0 0 (str "/usr/lib/liby.dylib")]
    [⟨str "_zeta", 0x0f⟩, ⟨str "_OBJC_CLASS_$_Foo", 0x0f⟩, ⟨str "_alpha", 0x0f⟩,
      ⟨str "_OBJC_IVAR_$_Foo._x", 0x0f⟩, ⟨str "_local", 0x0e⟩, ⟨str "_OBJC_METACLASS_$_Foo", 0x0f⟩,
      ⟨str "_OBJC_CLASS_$_Bar", 0x0f⟩]

/-- An identification command followed by a re-export command. -/
def bugFile : macho.File :=
  mkFile
    [mkDylibCmd LoadDylibIdCmd 0x00010000 0x00010000 (str "/usr/lib/libA.dylib"),
      mkDylibCmd ReExportDylibCmd 0 0 (str "/usr/lib/libB.dylib")]
    []

/-- An identification command and seven re-exports: one path of length 1, then
six of length 2. -/
def reexFile : macho.File :=
  mkFile
    [mkDylibCmd LoadDylibIdCmd 0x00010000 0x00010000 (str "/usr/lib/libA.dylib"),
      mkDylibCmd ReExportDylibCmd 0 0 (str "a"),
      mkDylibCmd ReExportDylibCmd 0 0 (str "bb"),
      mkDylibCmd ReExportDylibCmd 0 0 (str "cc"),
      mkDylibCmd ReExportDylibCmd 0 0 (str "dd"),
      mkDylibCmd ReExportDylibCmd 0 0 (str "ee"),
      mkDylibCmd ReExportDylibCmd 0 0 (str "ff"),
      mkDylibCmd ReExportDylibCmd 0 0 (str "gg")]
    []

/-- One symbol whose name holds both `_OBJC_METACLASS` and `_OBJC_CLASS`: the
metaclass of a class called `MY_OBJC_CLASSIFIER`. -/
def metaFile : macho.File :=
  mkFile [] [⟨str "_OBJC_METACLASS_$_MY_OBJC_CLASSIFIER", 0x0f⟩]

/-- A universal binary of two slices: `exFile` (x86_64) and an image for a CPU
type the program does not know (PowerPC, 18). -/
def fatFile : macho.FatFile :=
  { Arches := [⟨exFile⟩, ⟨{ exFile with Cpu := 18, SubCpu := 0 }⟩] }

/-- A dylib-identification command of exactly the 24 header bytes whose name
offset, 256, points past the command. -/
def badNameCmd : macho.Load :=
  { Raw := { elems := le32 LoadDylibIdCmd ++ le32 24 ++ le32 256 ++ le32 0 ++ le32 0x00010000
      ++ le32 0x00010000 } }

/-- A command of eight bytes that declares a length of 64. -/
def overlongCmd : macho.Load :=
  { Raw := { elems := le32 0x19 ++ le32 64 } }

/-- A dylib-identification command of sixteen bytes: too short for the header. -/
def shortIdCmd : macho.Load :=
  { Raw := { elems := le32 LoadDylibIdCmd ++ le32 16 ++ le32 24 ++ le32 0 } }

/-- A universal binary of three slices: `exFile` (x86_64), the image of
`bugFile` for arm64, and an image for an unsupported CPU type. -/
def fatFile3 : macho.FatFile :=
  { Arches :=
      [⟨exFile⟩, ⟨{ bugFile with Cpu := arm64, SubCpu := 0 }⟩,
        ⟨{ exFile with Cpu := 18, SubCpu := 0 }⟩] }

/-- An image without identification command: a segment command and a re-export. -/
def noIdFile : macho.File :=
  mkFile [mkPlainCmd 0x19, mkDylibCmd ReExportDylibCmd 0 0 (str "/usr/lib/liby.dylib")] []

/-- An image that starts with the bytes de ad be ef. -/
def junkImage : List Byte := [0xde, 0xad, 0xbe, 0xef, 0, 0, 0, 0]

/-- An identification command and four re-exports whose paths have the lengths
2, 1, 4, 3. -/
def mixedReexFile : macho.File :=
  mkFile
    [mkDylibCmd LoadDylibIdCmd 0x00010000 0x00010000 (str "/usr/lib/libA.dylib"),
      mkDylibCmd ReExportDylibCmd 0 0 (str "bb"),
      mkDylibCmd ReExportDylibCmd 0 0 (str "a"),
      mkDylibCmd ReExportDylibCmd 0 0 (str "dddd"),
      mkDylibCmd ReExportDylibCmd 0 0 (str "ccc")]
    []

/-! # Theorems -/

/-! ## The order on strings and the sorting procedures -/

theorem strLe_total : ∀ a b : GoString, strLe a b = true ∨ strLe b a = true
  | [], _ => Or.inl (by simp [strLe])
  | _ :: _, [] => Or.inr (by simp [strLe])
  | a :: as, b :: bs => by
    rcases lt_trichotomy a b with h | h | h
    · left; simp [strLe, h]
    · subst h
      simpa [strLe] using strLe_total as bs
    · right; simp [strLe, h]

theorem strLe_cons_iff (a b : Byte) (as bs : GoString) :
    strLe (a :: as) (b :: bs) = true ↔ a < b ∨ (a = b ∧ strLe as bs = true) := by
  rcases lt_trichotomy a b with h | h | h
  · simp [strLe, h]
  · subst h
    simp [strLe]
  · have h1 : ¬ a < b := not_lt_of_gt h
    have h2 : a ≠ b := ne_of_gt h
    simp [strLe, h, h1, h2]

theorem strLe_trans : ∀ a b c : GoString, strLe a b = true → strLe b c = true → strLe a c = true
  | [], _, _ => fun _ _ => by simp [strLe]
  | _ :: _, [], _ => fun h _ => by simp [strLe] at h
  | _ :: _, _ :: _, [] => fun _ h => by simp [strLe] at h
  | a :: as, b :: bs, c :: cs => by
    intro hab hbc
    rw [strLe_cons_iff] at hab hbc ⊢
    rcases hab with h | ⟨h, hab⟩ <;> rcases hbc with k | ⟨k, hbc⟩
    · exact Or.inl (lt_trans h k)
    · exact Or.inl (k ▸ h)
    · exact Or.inl (h ▸ k)
    · exact Or.inr ⟨h.trans k, strLe_trans as bs cs hab hbc⟩

theorem strLe_antisymm : ∀ a b : GoString, strLe a b = true → strLe b a = true → a = b
  | [], [] => fun _ _ => rfl
  | [], _ :: _ => fun _ h => by simp [strLe] at h
  | _ :: _, [] => fun h _ => by simp [strLe] at h
  | a :: as, b :: bs => by
    intro hab hba
    rw [strLe_cons_iff] at hab hba
    rcases hab with h | ⟨h, hab⟩ <;> rcases hba with k | ⟨k, hba⟩
    · exact absurd k (not_lt_of_gt h)
    · exact absurd h (k ▸ lt_irrefl _)
    · exact absurd k (h ▸ lt_irrefl _)
    · rw [h, strLe_antisymm as bs hab hba]

theorem sort_Strings_sorted (x : List GoString) : (sort.Strings x).Sorted StrLE :=
  @List.sorted_insertionSort _ StrLE _ ⟨strLe_total⟩ ⟨strLe_trans⟩ x

theorem sort_Strings_perm (x : List GoString) : (sort.Strings x).Perm x :=
  List.perm_insertionSort StrLE x

/-- Any increasing rearrangement of `x` is `sort.Strings x`: the model of
`sort.Strings` does not depend on the algorithm. -/
theorem sort_Strings_unique (x y : List GoString) (hp : y.Perm x) (hs : y.Sorted StrLE) :
    y = sort.Strings x :=
  @List.eq_of_perm_of_sorted _ StrLE ⟨strLe_antisymm⟩ _ _
    (hp.trans (sort_Strings_perm x).symm) hs (sort_Strings_sorted x)

theorem sort_Strings_chain (x : List GoString) : (sort.Strings x).Chain' StrLE :=
  (sort_Strings_sorted x).chain'

/-- Insertion sort meets the contract of `sort.Sort`. -/
theorem sortInsertion_spec : sort.SortSpec sortInsertion := by
  intro less hl l
  refine ⟨List.perm_insertionSort _ l, ?_⟩
  have htot : IsTotal GoString (fun a b => less b a = false) := ⟨fun a b => by
    cases hab : less b a
    · exact Or.inl rfl
    · right
      cases hba : less a b
      · rfl
      · have := hl.trans a b a hba hab
        rw [hl.irrefl] at this
        exact absurd this (by simp)⟩
  have htr : IsTrans GoString (fun a b => less b a = false) :=
    ⟨fun a b c hab hbc => hl.incomp c b a hbc hab⟩
  exact @List.sorted_insertionSort _ (fun a b => less b a = false) _ htot htr l

/-- The comparison `ByLength.Less` is a strict weak ordering, as `sort.Sort` requires. -/
theorem ByLength_isLess : sort.IsLess ByLength.Less where
  irrefl a := by simp [ByLength.Less]
  trans a b c h1 h2 := by
    simp only [ByLength.Less, decide_eq_true_eq] at *
    omega
  incomp a b c h1 h2 := by
    simp only [ByLength.Less, decide_eq_false_iff_not] at *
    omega

/-! ## Library functions -/

theorem decimalDigits_value :
    ∀ (fuel n : Nat) (ds : List Byte), n < fuel →
      (decimalDigits fuel n ds).foldl (fun acc c => 10 * acc + (c.val - 48)) 0
        = ds.foldl (fun acc c => 10 * acc + (c.val - 48)) n
  | 0, _, _, h => absurd h (by omega)
  | fuel + 1, n, ds, h => by
    have hd : ((Fin.ofNat (48 + n % 10) : Byte).val - 48) = n % 10 := by
      have : (Fin.ofNat (48 + n % 10) : Byte).val = (48 + n % 10) % 256 := rfl
      rw [this]
      omega
    rw [decimalDigits]
    split_ifs with h0
    · rw [List.foldl_cons, hd]
      congr 1
      omega
    · rw [decimalDigits_value fuel (n / 10) _ (by omega), List.foldl_cons, hd]
      congr 1
      omega

/-- The rendering `%d` denotes the number rendered. -/
theorem decimalValue_fmt_d (n : Nat) : decimalValue (fmt_d n) = n := by
  rw [decimalValue, fmt_d, decimalDigits_value (n + 1) n [] (by omega)]
  rfl

theorem replaceFrom_skip (old new : GoString) :
    ∀ (xs s : GoString), strings.replaceFrom old new xs.length (xs ++ s)
      = strings.replaceFrom old new 0 s
  | [], _ => rfl
  | _ :: xs, s => replaceFrom_skip old new xs s

/-- An occurrence of `old` at the front is replaced and the scan goes on behind it. -/
theorem strings_Replace_occurrence (old new s : GoString) (h : old ≠ []) :
    strings.Replace (old ++ s) old new = new ++ strings.Replace s old new := by
  cases old with
  | nil => exact absurd rfl h
  | cons o os =>
    have hp : (o :: os).isPrefixOf (o :: (os ++ s)) = true := by
      rw [List.isPrefixOf_iff_prefix]
      exact List.prefix_append (o :: os) s
    rw [strings.Replace, strings.Replace, List.cons_append, strings.replaceFrom,
      if_pos ⟨h, hp⟩]
    simp only [List.length_cons, Nat.add_sub_cancel]
    rw [replaceFrom_skip]

/-- A byte at which no occurrence of `old` starts is kept. -/
theorem strings_Replace_keep (old new : GoString) (c : Byte) (s : GoString)
    (h : old.isPrefixOf (c :: s) = false) :
    strings.Replace (c :: s) old new = c :: strings.Replace s old new := by
  rw [strings.Replace, strings.Replace, strings.replaceFrom, if_neg]
  rw [h]
  simp

/-! ## Arithmetic of versions -/

theorem Uint32_lt (bo : binary.ByteOrder) (b : List Byte) : bo.Uint32 b < 2 ^ 32 := by
  have h0 := (b.getD 0 0).isLt
  have h1 := (b.getD 1 0).isLt
  have h2 := (b.getD 2 0).isLt
  have h3 := (b.getD 3 0).isLt
  cases bo <;> simp only [binary.ByteOrder.Uint32] <;> omega

theorem ver_eq_renderVersion (V : Nat) (hV : V < 2 ^ 32) : ver V = renderVersion V := by
  have hmaj : V >>> 16 = bitField V 16 16 := by
    rw [Nat.shiftRight_eq_div_pow, bitField, Nat.mod_eq_of_lt]
    omega
  have hmin : (V >>> 8) &&& 0xff = bitField V 8 8 := by
    rw [Nat.shiftRight_eq_div_pow, bitField]
    exact Nat.and_pow_two_sub_one_eq_mod _ 8
  have hpat : V &&& 0xff = bitField V 0 8 := by
    rw [bitField, pow_zero, Nat.div_one]
    exact Nat.and_pow_two_sub_one_eq_mod _ 8
  rw [ver, renderVersion, hmaj, hmin, hpat]

/-! ## The walk over the load commands -/

theorem take_drop_take (l : List Byte) (n k m : Nat) (h : k + m ≤ n) :
    ((l.take n).drop k).take m = (l.drop k).take m := by
  rw [List.drop_take, List.take_take]
  congr 1
  omega

theorem full_kind (v : macho.Load) (bo : binary.ByteOrder) (h : 8 ≤ v.Raw.elems.length) :
    bo.Uint32 (List.take 4 (v.Raw.elems ++ v.Raw.spare)) = cmdKind bo v := by
  rw [cmdKind, List.take_append_of_le_length (by omega)]

theorem full_len (v : macho.Load) (bo : binary.ByteOrder) (h : 8 ≤ v.Raw.elems.length) :
    bo.Uint32 (List.take 4 (List.drop 4 (v.Raw.elems ++ v.Raw.spare))) = cmdLen bo v := by
  rw [cmdLen, List.drop_append_of_le_length (by omega),
    List.take_append_of_le_length (by rw [List.length_drop]; omega)]

theorem isDecodable_full (bo : binary.ByteOrder) (kind : Nat) (v : macho.Load) :
    isDecodable bo kind v = true ↔
      bo.Uint32 (List.take 4 (v.Raw.elems ++ v.Raw.spare)) = kind ∧
        24 ≤ bo.Uint32 (List.take 4 (List.drop 4 (v.Raw.elems ++ v.Raw.spare))) ∧
        bo.Uint32 (List.take 4 (List.drop 4 (v.Raw.elems ++ v.Raw.spare))) ≤
          v.Raw.elems.length := by
  simp only [isDecodable, decide_eq_true_eq]
  constructor
  · rintro ⟨h1, h2, h3⟩
    rw [full_kind v bo (by omega), full_len v bo (by omega)]
    exact ⟨h1, h2, h3⟩
  · rintro ⟨h1, h2, h3⟩
    have h8 : 8 ≤ v.Raw.elems.length := by omega
    rw [full_kind v bo h8] at h1
    rw [full_len v bo h8] at h2 h3
    exact ⟨h1, h2, h3⟩

theorem binary_Read_take (bo : binary.ByteOrder) (l : List Byte) (n : Nat) (h24 : 24 ≤ n)
    (hn : n ≤ l.length) :
    binary.Read bo (l.take n) = some
      { Cmd := bo.Uint32 (l.take 4)
        Len := bo.Uint32 ((l.drop 4).take 4)
        Name := bo.Uint32 ((l.drop 8).take 4)
        Time := bo.Uint32 ((l.drop 12).take 4)
        CurrentVersion := bo.Uint32 ((l.drop 16).take 4)
        CompatVersion := bo.Uint32 ((l.drop 20).take 4) } := by
  have hlen : ¬ (l.take n).length < 24 := by
    rw [List.length_take]; omega
  rw [binary.Read, if_neg hlen]
  have h0 : List.take 4 (List.take n l) = List.take 4 l := by
    rw [List.take_take]; congr 1; omega
  rw [h0, take_drop_take l n 4 4 (by omega), take_drop_take l n 8 4 (by omega),
    take_drop_take l n 12 4 (by omega), take_drop_take l n 16 4 (by omega),
    take_drop_take l n 20 4 (by omega)]

theorem binary_Read_short (bo : binary.ByteOrder) (l : List Byte) (h : l.length < 24) :
    binary.Read bo l = none := by
  rw [binary.Read, if_pos h]

/-- The effect of one load command on the variables of the walk, when it does not panic. -/
theorem walkStep_cases (bo : binary.ByteOrder) (st st' : WalkState) (v : macho.Load)
    (h : walkStep bo st v = some st') :
    (isDecodable bo LoadDylibIdCmd v = true ∧
        st' = { st with
                path := cmdNameString bo v
                version := ver (hdrCurrentVersion bo v)
                compatibility_version := ver (hdrCompatVersion bo v) }) ∨
      (isDecodable bo ReExportDylibCmd v = true ∧
        st' = { st with
                path := cmdNameString bo v
                real_reexports := st.real_reexports ++ [cmdNameString bo v] }) ∨
      (isDecodable bo LoadDylibIdCmd v = false ∧ isDecodable bo ReExportDylibCmd v = false ∧
        st' = st) := by
  have hne : LoadDylibIdCmd ≠ ReExportDylibCmd := by decide
  unfold walkStep at h
  dsimp only at h
  split_ifs at h with h8 hsz hid hre
  · -- a dylib-identification command
    by_cases h24 : 24 ≤ bo.Uint32 (List.take 4 (List.drop 4 (v.Raw.elems ++ v.Raw.spare)))
    · left
      have hdec : isDecodable bo LoadDylibIdCmd v = true :=
        (isDecodable_full bo _ v).2 ⟨hid, h24, by omega⟩
      rw [binary_Read_take bo _ _ h24 (by omega)] at h
      dsimp only at h
      split_ifs at h with hname
      rw [full_len v bo (by omega)] at h
      exact ⟨hdec, (Option.some.inj h).symm⟩
    · right; right
      rw [binary_Read_short bo _ (by rw [List.length_take]; omega)] at h
      refine ⟨?_, ?_, (Option.some.inj h).symm⟩
      · rw [Bool.eq_false_iff]; intro hd
        exact h24 ((isDecodable_full bo _ v).1 hd).2.1
      · rw [Bool.eq_false_iff]; intro hd
        exact h24 ((isDecodable_full bo _ v).1 hd).2.1
  · -- a re-export command
    by_cases h24 : 24 ≤ bo.Uint32 (List.take 4 (List.drop 4 (v.Raw.elems ++ v.Raw.spare)))
    · right; left
      have hdec : isDecodable bo ReExportDylibCmd v = true :=
        (isDecodable_full bo _ v).2 ⟨hre, h24, by omega⟩
      rw [binary_Read_take bo _ _ h24 (by omega)] at h
      dsimp only at h
      split_ifs at h with hname
      rw [full_len v bo (by omega)] at h
      exact ⟨hdec, (Option.some.inj h).symm⟩
    · right; right
      rw [binary_Read_short bo _ (by rw [List.length_take]; omega)] at h
      refine ⟨?_, ?_, (Option.some.inj h).symm⟩
      · rw [Bool.eq_false_iff]; intro hd
        exact h24 ((isDecodable_full bo _ v).1 hd).2.1
      · rw [Bool.eq_false_iff]; intro hd
        exact h24 ((isDecodable_full bo _ v).1 hd).2.1
  · right; right
    refine ⟨?_, ?_, (Option.some.inj h).symm⟩
    · rw [Bool.eq_false_iff]; intro hd
      exact hid ((isDecodable_full bo _ v).1 hd).1
    · rw [Bool.eq_false_iff]; intro hd
      exact hre ((isDecodable_full bo _ v).1 hd).1

theorem walk_cons_some (bo : binary.ByteOrder) (v : macho.Load) (rest : List macho.Load)
    (st w : WalkState) (h : walk bo (v :: rest) st = some w) :
    ∃ st1, walkStep bo st v = some st1 ∧ walk bo rest st1 = some w := by
  rw [walk] at h
  cases hs : walkStep bo st v with
  | none => rw [hs] at h; exact absurd h (by simp)
  | some st1 => rw [hs] at h; exact ⟨st1, rfl, h⟩

theorem lastDylibId_cons (bo : binary.ByteOrder) (v : macho.Load) (rest : List macho.Load) :
    lastDylibId bo (v :: rest) =
      match lastDylibId bo rest with
      | some c => some c
      | none => if isDecodable bo LoadDylibIdCmd v = true then some v else none := by
  unfold lastDylibId
  rw [List.filter_cons]
  by_cases hv : isDecodable bo LoadDylibIdCmd v = true
  · rw [if_pos hv, if_pos hv, List.getLast?_cons]
    cases List.getLast? (List.filter (isDecodable bo LoadDylibIdCmd) rest) <;> rfl
  · rw [if_neg hv, if_neg hv]
    cases List.getLast? (List.filter (isDecodable bo LoadDylibIdCmd) rest) <;> rfl

/-- The versions after the walk: those of the last decodable dylib-identification
command, or the initial ones when there is none. -/
theorem walk_versions (bo : binary.ByteOrder) :
    ∀ (loads : List macho.Load) (st w : WalkState), walk bo loads st = some w →
      (w.version, w.compatibility_version) =
        match lastDylibId bo loads with
        | some c => (ver (hdrCurrentVersion bo c), ver (hdrCompatVersion bo c))
        | none => (st.version, st.compatibility_version)
  | [], st, w, h => by
    rw [walk] at h
    cases h
    rfl
  | v :: rest, st, w, h => by
    obtain ⟨st1, h1, h2⟩ := walk_cons_some bo v rest st w h
    have ih := walk_versions bo rest st1 w h2
    rw [lastDylibId_cons]
    cases hl : lastDylibId bo rest with
    | some c => rw [hl] at ih; exact ih
    | none =>
      rw [hl] at ih
      dsimp only at ih ⊢
      rcases walkStep_cases bo st st1 v h1 with ⟨hd, rfl⟩ | ⟨hd, rfl⟩ | ⟨hd, hd', rfl⟩
      · rw [if_pos hd]; exact ih
      · have hne : LoadDylibIdCmd ≠ ReExportDylibCmd := by decide
        have hd0 : ¬ isDecodable bo LoadDylibIdCmd v = true := by
          intro h0
          simp only [isDecodable, decide_eq_true_eq] at hd h0
          exact hne (h0.1.symm.trans hd.1)
        rw [if_neg hd0]; exact ih
      · rw [if_neg (by rw [hd]; simp)]; exact ih

/-- The re-export list after the walk: the names of the decodable re-export
commands, in the order of the commands, appended to the initial list. -/
theorem walk_reexports (bo : binary.ByteOrder) :
    ∀ (loads : List macho.Load) (st w : WalkState), walk bo loads st = some w →
      w.real_reexports = st.real_reexports ++ reexportNames bo loads
  | [], st, w, h => by
    rw [walk] at h
    cases h
    simp [reexportNames]
  | v :: rest, st, w, h => by
    obtain ⟨st1, h1, h2⟩ := walk_cons_some bo v rest st w h
    have ih := walk_reexports bo rest st1 w h2
    have hne : LoadDylibIdCmd ≠ ReExportDylibCmd := by decide
    rcases walkStep_cases bo st st1 v h1 with ⟨hd, rfl⟩ | ⟨hd, rfl⟩ | ⟨hd, hd', rfl⟩
    · have hd0 : ¬ isDecodable bo ReExportDylibCmd v = true := by
        intro h0
        simp only [isDecodable, decide_eq_true_eq] at hd h0
        exact hne (hd.1.symm.trans h0.1)
      rw [ih, reexportNames, reexportNames, List.filter_cons, if_neg hd0]
    · rw [ih, reexportNames, reexportNames, List.filter_cons, if_pos hd]
      simp
    · rw [ih, reexportNames, reexportNames, List.filter_cons, if_neg (by rw [hd']; simp)]

theorem cons_set_perm (d a : GoString) :
    ∀ (t : List GoString) (j : Nat), j < t.length → (t.getD j d :: t.set j a).Perm (a :: t)
  | [], _, h => absurd h (by simp)
  | b :: t, 0, _ => by
    simpa using List.Perm.swap a b t
  | b :: t, j + 1, h => by
    have ih := cons_set_perm d a t j (by simpa using h)
    simp only [List.getD_cons_succ, List.set_cons_succ]
    exact (List.Perm.swap b (t.getD j d) (t.set j a)).trans
      ((ih.cons b).trans (List.Perm.swap a b t))

theorem ByLength_Swap_perm :
    ∀ (s : List GoString) (i j : Nat), i < s.length → j < s.length →
      (ByLength.Swap s i j).Perm s
  | [], _, _, h, _ => absurd h (by simp)
  | a :: t, 0, 0, _, _ => by simp [ByLength.Swap]
  | a :: t, 0, j + 1, _, hj => by
    simpa [ByLength.Swap] using cons_set_perm [] a t j (by simpa using hj)
  | a :: t, i + 1, 0, hi, _ => by
    simpa [ByLength.Swap] using cons_set_perm [] a t i (by simpa using hi)
  | a :: t, i + 1, j + 1, hi, hj => by
    have ih := ByLength_Swap_perm t i j (by simpa using hi) (by simpa using hj)
    simpa [ByLength.Swap] using ih

theorem shellPass_perm (less : GoString → GoString → Bool) :
    ∀ (k i : Nat) (s : List GoString), i + k ≤ s.length → (shellPass less i k s).Perm s
  | 0, _, s, _ => List.Perm.refl s
  | k + 1, i, s, h => by
    rw [shellPass]
    split_ifs with hl
    · have hp := ByLength_Swap_perm s i (i - 6) (by omega) (by omega)
      exact (shellPass_perm less k (i + 1) _ (by rw [hp.length_eq]; omega)).trans hp
    · exact shellPass_perm less k (i + 1) s (by omega)

theorem sortShell_spec : sort.SortSpec sortShell := by
  intro less hl s
  have h := sortInsertion_spec less hl (shellPass less 6 (s.length - 6) s)
  refine ⟨h.1.trans ?_, h.2⟩
  by_cases h6 : 6 ≤ s.length
  · exact shellPass_perm less _ 6 s (by omega)
  · have : s.length - 6 = 0 := by omega
    rw [this, shellPass]

theorem walkStep_returns (bo : binary.ByteOrder) (st : WalkState) (v : macho.Load)
    (h : wellFormed bo v = true) : ∃ st', walkStep bo st v = some st' := by
  simp only [wellFormed, decide_eq_true_eq] at h
  obtain ⟨h8, hlen, hname⟩ := h
  have hfull : ¬ (v.Raw.elems ++ v.Raw.spare).length < 8 := by
    rw [List.length_append]; omega
  unfold walkStep
  dsimp only
  rw [if_neg hfull, full_kind v bo h8, full_len v bo h8, if_neg (by omega)]
  have hread : ∀ k : Nat, cmdKind bo v = LoadDylibIdCmd ∨ cmdKind bo v = ReExportDylibCmd →
      24 ≤ cmdLen bo v →
      ¬ (List.take (cmdLen bo v) v.Raw.elems).length < hdrName bo v := by
    intro _ hk h24
    have := hname hk h24
    rw [List.length_take]
    omega
  by_cases h24 : 24 ≤ cmdLen bo v
  · rw [binary_Read_take bo _ _ h24 hlen]
    dsimp only
    split_ifs with hid hn hre hn
    · exact absurd hn (hread 0 (Or.inl hid) h24)
    · exact ⟨_, rfl⟩
    · exact absurd hn (hread 0 (Or.inr hre) h24)
    · exact ⟨_, rfl⟩
    · exact ⟨_, rfl⟩
  · rw [binary_Read_short bo _ (by rw [List.length_take]; omega)]
    dsimp only
    split_ifs <;> exact ⟨_, rfl⟩

/-- The walk over well-formed load commands ends without a panic. -/
theorem walk_returns (bo : binary.ByteOrder) :
    ∀ (loads : List macho.Load) (st : WalkState),
      (∀ v ∈ loads, wellFormed bo v = true) → ∃ w, walk bo loads st = some w
  | [], st, _ => ⟨st, rfl⟩
  | v :: rest, st, h => by
    obtain ⟨st1, h1⟩ := walkStep_returns bo st v (h v (List.mem_cons_self v rest))
    obtain ⟨w, hw⟩ := walk_returns bo rest st1 (fun u hu => h u (List.mem_cons_of_mem v hu))
    exact ⟨w, by rw [walk, h1]; exact hw⟩

theorem orderedInsert_filter_length (n : Nat) (a : GoString) :
    ∀ l : List GoString,
      (List.orderedInsert (fun x y => ByLength.Less y x = false) a l).filter
          (fun s => decide (s.length = n))
        = (a :: l).filter (fun s => decide (s.length = n))
  | [] => rfl
  | b :: l => by
    rw [List.orderedInsert]
    split_ifs with h
    · rfl
    · have hlt : a.length < b.length := by
        simpa [ByLength.Less] using h
      rw [List.filter_cons, orderedInsert_filter_length n a l]
      by_cases hb : b.length = n
      · have ha : ¬ a.length = n := by omega
        simp [List.filter_cons, hb, ha]
      · simp [List.filter_cons, hb]

/-- Insertion sort by length keeps paths of equal length in their order. -/
theorem sortInsertion_keeps_order (enc : List GoString) :
    KeepsEncounterOrder enc (sortInsertion ByLength.Less enc) := by
  intro n
  induction enc with
  | nil => rfl
  | cons a l ih =>
    rw [sortInsertion, List.insertionSort, orderedInsert_filter_length, List.filter_cons,
      List.filter_cons]
    rw [sortInsertion] at ih
    rw [ih]

/-- A command whose declared length exceeds its bytes makes the walk panic. -/
theorem walkStep_overlong (bo : binary.ByteOrder) (st : WalkState) (v : macho.Load)
    (h8 : 8 ≤ v.Raw.elems.length) (h : v.Raw.elems.length < cmdLen bo v) :
    walkStep bo st v = none := by
  have hfull : ¬ (v.Raw.elems ++ v.Raw.spare).length < 8 := by
    rw [List.length_append]; omega
  unfold walkStep
  dsimp only
  rw [if_neg hfull, full_len v bo h8, if_pos h]

/-- A decodable command of one of the two kinds whose name offset points past
its declared length makes the walk panic. -/
theorem walkStep_name_past_end (bo : binary.ByteOrder) (st : WalkState) (v : macho.Load)
    (hd : isDecodable bo LoadDylibIdCmd v = true ∨ isDecodable bo ReExportDylibCmd v = true)
    (h : cmdLen bo v < hdrName bo v) :
    walkStep bo st v = none := by
  have hx : 24 ≤ cmdLen bo v ∧ cmdLen bo v ≤ v.Raw.elems.length ∧
      (cmdKind bo v = LoadDylibIdCmd ∨ cmdKind bo v = ReExportDylibCmd) := by
    rcases hd with hd | hd <;> simp only [isDecodable, decide_eq_true_eq] at hd
    · exact ⟨hd.2.1, hd.2.2, Or.inl hd.1⟩
    · exact ⟨hd.2.1, hd.2.2, Or.inr hd.1⟩
  obtain ⟨h24, hlen, hk⟩ := hx
  have h8 : 8 ≤ v.Raw.elems.length := by omega
  have hfull : ¬ (v.Raw.elems ++ v.Raw.spare).length < 8 := by
    rw [List.length_append]; omega
  have hpast : (List.take (cmdLen bo v) v.Raw.elems).length < hdrName bo v := by
    rw [List.length_take]; omega
  unfold walkStep
  dsimp only
  rw [if_neg hfull, full_kind v bo h8, full_len v bo h8, if_neg (by omega),
    binary_Read_take bo _ _ h24 hlen]
  dsimp only
  rcases hk with hk | hk
  · rw [if_pos hk]
    exact if_pos hpast
  · have hne : ¬ cmdKind bo v = LoadDylibIdCmd := by
      rw [hk]; decide
    rw [if_neg hne, if_pos hk]
    exact if_pos hpast

theorem walk_append (bo : binary.ByteOrder) :
    ∀ (a b : List macho.Load) (st : WalkState),
      walk bo (a ++ b) st = (walk bo a st).bind (walk bo b)
  | [], _, _ => rfl
  | v :: a, b, st => by
    rw [List.cons_append, walk, walk]
    cases walkStep bo st v with
    | none => rfl
    | some st1 => exact walk_append bo a b st1

/-- A command of another kind with its header and a declared length within its
bytes leaves the variables of the walk as they are. -/
theorem walkStep_other (bo : binary.ByteOrder) (st : WalkState) (v : macho.Load)
    (hk1 : cmdKind bo v ≠ LoadDylibIdCmd) (hk2 : cmdKind bo v ≠ ReExportDylibCmd)
    (h8 : 8 ≤ v.Raw.elems.length) (hfit : cmdLen bo v ≤ v.Raw.elems.length) :
    walkStep bo st v = some st := by
  have hfull : ¬ (v.Raw.elems ++ v.Raw.spare).length < 8 := by
    rw [List.length_append]; omega
  unfold walkStep
  dsimp only
  rw [if_neg hfull, full_kind v bo h8, full_len v bo h8, if_neg (by omega), if_neg hk1,
    if_neg hk2]

theorem walk_insert_other (bo : binary.ByteOrder) (pre post : List macho.Load)
    (v : macho.Load) (st : WalkState)
    (hk1 : cmdKind bo v ≠ LoadDylibIdCmd) (hk2 : cmdKind bo v ≠ ReExportDylibCmd)
    (h8 : 8 ≤ v.Raw.elems.length) (hfit : cmdLen bo v ≤ v.Raw.elems.length) :
    walk bo (pre ++ v :: post) st = walk bo (pre ++ post) st := by
  rw [walk_append, walk_append]
  cases walk bo pre st with
  | none => rfl
  | some st1 =>
    simp only [Option.some_bind]
    rw [walk, walkStep_other bo st1 v hk1 hk2 h8 hfit]

/-! ## The loop over the symbol table -/

/-- The entries one symbol adds to the four lists. -/
theorem classifyStep_append (acc : SymLists) (v : macho.Symbol) :
    classifyStep acc v =
      { real_symbols := acc.real_symbols ++ (classifyStep {} v).real_symbols
        real_classes := acc.real_classes ++ (classifyStep {} v).real_classes
        real_ivars := acc.real_ivars ++ (classifyStep {} v).real_ivars
        real_weak := acc.real_weak ++ (classifyStep {} v).real_weak } := by
  unfold classifyStep
  split_ifs <;> simp

theorem foldl_classifyStep (syms : List macho.Symbol) :
    ∀ acc : SymLists, syms.foldl classifyStep acc =
      { real_symbols := acc.real_symbols ++ syms.flatMap (fun v => (classifyStep {} v).real_symbols)
        real_classes := acc.real_classes ++ syms.flatMap (fun v => (classifyStep {} v).real_classes)
        real_ivars := acc.real_ivars ++ syms.flatMap (fun v => (classifyStep {} v).real_ivars)
        real_weak := acc.real_weak ++ syms.flatMap (fun v => (classifyStep {} v).real_weak) } := by
  induction syms with
  | nil => intro acc; simp
  | cons v rest ih =>
    intro acc
    rw [List.foldl_cons, ih, classifyStep_append acc v]
    simp [List.flatMap_cons, List.append_assoc]

theorem classify_eq (syms : List macho.Symbol) :
    classify syms =
      { real_symbols := syms.flatMap (fun v => (classifyStep {} v).real_symbols)
        real_classes := syms.flatMap (fun v => (classifyStep {} v).real_classes)
        real_ivars := syms.flatMap (fun v => (classifyStep {} v).real_ivars)
        real_weak := syms.flatMap (fun v => (classifyStep {} v).real_weak) } := by
  rw [classify, foldl_classifyStep]
  simp

theorem classify_append (xs ys : List macho.Symbol) :
    classify (xs ++ ys) =
      { real_symbols := (classify xs).real_symbols ++ (classify ys).real_symbols
        real_classes := (classify xs).real_classes ++ (classify ys).real_classes
        real_ivars := (classify xs).real_ivars ++ (classify ys).real_ivars
        real_weak := (classify xs).real_weak ++ (classify ys).real_weak } := by
  simp [classify_eq, List.flatMap_append]

theorem classify_singleton (v : macho.Symbol) : classify [v] = classifyStep {} v := rfl

theorem classify_insert (pre post : List macho.Symbol) (v : macho.Symbol) :
    classify (pre ++ v :: post) =
      { real_symbols :=
          (classify pre).real_symbols ++ (classifyStep {} v).real_symbols
            ++ (classify post).real_symbols
        real_classes :=
          (classify pre).real_classes ++ (classifyStep {} v).real_classes
            ++ (classify post).real_classes
        real_ivars :=
          (classify pre).real_ivars ++ (classifyStep {} v).real_ivars ++ (classify post).real_ivars
        real_weak :=
          (classify pre).real_weak ++ (classifyStep {} v).real_weak ++ (classify post).real_weak } := by
  have : pre ++ v :: post = pre ++ ([v] ++ post) := rfl
  rw [this, classify_append, classify_append, classify_singleton]
  simp [List.append_assoc]

/-! ## What `parse_macho` returns -/

/-- An unsupported architecture: the error return, whatever the rest of the image. -/
theorem parse_macho_uns (srt : SortAlgo) (f : macho.File) (h : cpu_type f = str "uns") :
    parse_macho srt f = some { arch := {}, info := [], err := some (str "Unsupported arch") } := by
  simp [parse_macho, h]

/-- A supported architecture, a symbol table and a walk that ends: the normal return. -/
theorem parse_macho_ok (srt : SortAlgo) (f : macho.File) (syms : List macho.Symbol)
    (w : WalkState) (hcpu : cpu_type f ≠ str "uns") (hsym : f.Symtab = some syms)
    (hw : walk f.ByteOrder f.Loads WalkState.init = some w) :
    parse_macho srt f = some
      { arch :=
          { Name := cpu_type f
            Symbols := sort.Strings (classify syms).real_symbols
            Classes := sort.Strings (classify syms).real_classes
            Ivars := sort.Strings (classify syms).real_ivars
            Weak := sort.Strings (classify syms).real_weak
            ReExports :=
              if w.real_reexports.length > 0 then srt ByLength.Less w.real_reexports
              else w.real_reexports }
        info := [w.version, w.path, w.compatibility_version]
        err := none } := by
  simp [parse_macho, hcpu, hsym, hw]

theorem parse_macho_congr_symtab (srt : SortAlgo) (f : macho.File)
    (s s' : List macho.Symbol) (hs : f.Symtab = some s) (hc : classify s' = classify s) :
    parse_macho srt { f with Symtab := some s' } = parse_macho srt f := by
  simp only [parse_macho, cpu_type, hs, hc]

theorem classifyStep_class (v : macho.Symbol)
    (hflag : v.Type_ &&& N_TYPE = N_SECT ∧ v.Type_ &&& N_EXT = N_EXT)
    (hname : strings.Contains v.Name (str "_OBJC_CLASS") = true) :
    classifyStep {} v =
      { real_classes := [strings.Replace v.Name (str "_OBJC_CLASS_$") []] } := by
  have hne : v.Name ≠ [] := by
    intro h
    rw [h] at hname
    exact absurd hname (by decide)
  simp [classifyStep, hflag, hne, hname]

theorem classifyStep_metaclass (v : macho.Symbol)
    (hmeta : strings.Contains v.Name (str "_OBJC_METACLASS") = true)
    (hclass : strings.Contains v.Name (str "_OBJC_CLASS") = false)
    (hivar : strings.Contains v.Name (str "_OBJC_IVAR") = false) :
    classifyStep {} v = {} := by
  unfold classifyStep
  split_ifs <;> simp_all

theorem classifyStep_unconsidered (v : macho.Symbol) (h : isConsidered v = false) :
    classifyStep {} v = {} := by
  simp only [isConsidered, decide_eq_false_iff_not, not_and, not_not] at h
  unfold classifyStep
  split_ifs with h1 h2 <;> try rfl
  all_goals exact absurd (h h1.1 h1.2) h2

theorem flatMap_filter_of_nil {α β : Type} (p : α → Bool) (g : α → List β)
    (h : ∀ x, p x = false → g x = []) :
    ∀ l : List α, (l.filter p).flatMap g = l.flatMap g
  | [] => rfl
  | x :: l => by
    rw [List.filter_cons]
    cases hp : p x
    · simp [List.flatMap_cons, h x hp, flatMap_filter_of_nil p g h l]
    · simp [List.flatMap_cons, flatMap_filter_of_nil p g h l]

theorem classify_filter_considered (syms : List macho.Symbol) :
    classify (syms.filter isConsidered) = classify syms := by
  rw [classify_eq, classify_eq]
  rw [flatMap_filter_of_nil isConsidered _ (fun v hv => by rw [classifyStep_unconsidered v hv]),
    flatMap_filter_of_nil isConsidered _ (fun v hv => by rw [classifyStep_unconsidered v hv]),
    flatMap_filter_of_nil isConsidered _ (fun v hv => by rw [classifyStep_unconsidered v hv]),
    flatMap_filter_of_nil isConsidered _ (fun v hv => by rw [classifyStep_unconsidered v hv])]

theorem sort_Strings_insert_perm (a b : List GoString) (x : GoString) :
    (sort.Strings (a ++ [x] ++ b)).Perm (x :: sort.Strings (a ++ b)) := by
  refine (sort_Strings_perm _).trans ?_
  refine List.Perm.trans ?_ ((sort_Strings_perm (a ++ b)).symm.cons x)
  simp

theorem sort_Strings_congr (a b : List GoString) (h : a.Perm b) :
    sort.Strings a = sort.Strings b :=
  sort_Strings_unique b (sort.Strings a) ((sort_Strings_perm a).trans h) (sort_Strings_sorted a)

theorem classify_perm (s1 s2 : List macho.Symbol) (h : s1.Perm s2) :
    (classify s1).real_symbols.Perm (classify s2).real_symbols ∧
      (classify s1).real_classes.Perm (classify s2).real_classes ∧
      (classify s1).real_ivars.Perm (classify s2).real_ivars ∧
      (classify s1).real_weak.Perm (classify s2).real_weak := by
  rw [classify_eq, classify_eq]
  exact ⟨h.flatMap_right _, h.flatMap_right _, h.flatMap_right _, h.flatMap_right _⟩

theorem classifyStep_weak (v : macho.Symbol) : (classifyStep {} v).real_weak = [] := by
  unfold classifyStep
  split_ifs <;> rfl

theorem classify_weak (syms : List macho.Symbol) : (classify syms).real_weak = [] := by
  rw [classify_eq]
  induction syms with
  | nil => rfl
  | cons v rest ih =>
    simp only [List.flatMap_cons, classifyStep_weak, List.nil_append] at ih ⊢
    exact ih

theorem sort_Strings_nil : sort.Strings [] = [] := rfl

theorem classifyStep_count (v : macho.Symbol) :
    (classifyStep {} v).real_classes.length + (classifyStep {} v).real_ivars.length
        + (classifyStep {} v).real_symbols.length
        + (if (isConsidered v && isDiscardedMetaclass v) = true then 1 else 0)
      = if isConsidered v = true then 1 else 0 := by
  cases hc : isConsidered v
  · rw [classifyStep_unconsidered v hc]
    rfl
  · have hc' := hc
    simp only [isConsidered, decide_eq_true_eq] at hc'
    obtain ⟨h1, h2, h3⟩ := hc'
    have hflag : v.Type_ &&& N_TYPE = N_SECT ∧ v.Type_ &&& N_EXT = N_EXT := ⟨h1, h2⟩
    have hsect : v.Type_ &&& N_SECT = N_SECT := h1
    cases hcl : strings.Contains v.Name (str "_OBJC_CLASS") <;>
      cases hiv : strings.Contains v.Name (str "_OBJC_IVAR") <;>
      cases hme : strings.Contains v.Name (str "_OBJC_METACLASS") <;>
      simp [classifyStep, hflag, hsect, h3, hcl, hiv, hme, isDiscardedMetaclass]

theorem classify_count (syms : List macho.Symbol) :
    (classify syms).real_classes.length + (classify syms).real_ivars.length
        + (classify syms).real_symbols.length
        + (syms.filter (fun v => isConsidered v && isDiscardedMetaclass v)).length
      = (syms.filter isConsidered).length := by
  induction syms with
  | nil => rfl
  | cons v rest ih =>
    have hv := classifyStep_count v
    have happ := classify_append [v] rest
    rw [List.singleton_append, classify_singleton] at happ
    rw [happ]
    simp only [List.length_append, List.filter_cons]
    split_ifs at hv ⊢ with ha hb <;> simp only [List.length_cons] at * <;> omega

/-- The two ways `parse_macho` returns. -/
theorem parse_macho_cases (srt : SortAlgo) (f : macho.File) (r : ParseResult)
    (h : parse_macho srt f = some r) :
    (cpu_type f = str "uns" ∧
        r = { arch := {}, info := [], err := some (str "Unsupported arch") }) ∨
      (cpu_type f ≠ str "uns" ∧ ∃ syms w, f.Symtab = some syms ∧
        walk f.ByteOrder f.Loads WalkState.init = some w) := by
  by_cases hcpu : cpu_type f = str "uns"
  · left
    rw [parse_macho_uns srt f hcpu] at h
    exact ⟨hcpu, (Option.some.inj h).symm⟩
  · right
    refine ⟨hcpu, ?_⟩
    unfold parse_macho at h
    simp only [hcpu, if_false] at h
    cases hs : f.Symtab with
    | none => rw [hs] at h; exact absurd h (by simp)
    | some syms =>
      rw [hs] at h
      dsimp only at h
      cases hw : walk f.ByteOrder f.Loads WalkState.init with
      | none => rw [hw] at h; exact absurd h (by simp)
      | some w => exact ⟨syms, w, rfl, rfl⟩

/-! ## The loop over the slices -/

theorem parse_macho_supported_shape (srt : SortAlgo) (f : macho.File) (r : ParseResult)
    (hcpu : cpu_type f ≠ str "uns") (h : parse_macho srt f = some r) :
    r.err = none ∧ ∃ i0 i1 i2, r.info = [i0, i1, i2] := by
  unfold parse_macho at h
  simp only [hcpu, if_false] at h
  cases hs : f.Symtab with
  | none => rw [hs] at h; exact absurd h (by simp)
  | some syms =>
    rw [hs] at h
    dsimp only at h
    cases hw : walk f.ByteOrder f.Loads WalkState.init with
    | none => rw [hw] at h; exact absurd h (by simp)
    | some w =>
      rw [hw] at h
      cases h
      exact ⟨rfl, _, _, _, rfl⟩

theorem parse_fat_loop_archs (srt : SortAlgo) :
    ∀ (arches : List macho.FatArch) (acc : tbd.Tbd_list),
      (∀ v ∈ arches, isSupported v = true → (parse_macho srt v.File).isSome = true) →
      ∃ t, parse_fat_loop srt arches acc = some t ∧
        t.Archs = acc.Archs ++ supportedRecords srt arches
  | [], acc, _ => ⟨acc, rfl, by simp [supportedRecords]⟩
  | v :: rest, acc, h => by
    have hrest : ∀ u ∈ rest, isSupported u = true → (parse_macho srt u.File).isSome = true :=
      fun u hu => h u (List.mem_cons_of_mem v hu)
    by_cases hv : cpu_type v.File = str "uns"
    · obtain ⟨t, ht, hta⟩ := parse_fat_loop_archs srt rest acc hrest
      refine ⟨t, ?_, ?_⟩
      · rw [parse_fat_loop, parse_macho_uns srt v.File hv]
        exact ht
      · have : isSupported v = false := by simp [isSupported, hv]
        rw [hta, supportedRecords, supportedRecords, List.filter_cons, this]
        rfl
    · have hsup : isSupported v = true := by simp [isSupported, hv]
      obtain ⟨r, hr⟩ := Option.isSome_iff_exists.1 (h v (List.mem_cons_self v rest) hsup)
      obtain ⟨herr, i0, i1, i2, hinfo⟩ := parse_macho_supported_shape srt v.File r hv hr
      obtain ⟨t, ht, hta⟩ := parse_fat_loop_archs srt rest
        { acc with Archs := acc.Archs ++ [r.arch], Install_name := i1, Version := i0,
                   CompVersion := i2 } hrest
      refine ⟨t, ?_, ?_⟩
      · rw [parse_fat_loop, hr]
        simp only [herr, hinfo, List.getElem?_cons_zero, List.getElem?_cons_succ]
        exact ht
      · rw [hta, supportedRecords, supportedRecords, List.filter_cons, hsup]
        simp [List.filterMap_cons, hr]

theorem length_filterMap_of_isSome {α β : Type} (g : α → Option β) :
    ∀ l : List α, (∀ x ∈ l, (g x).isSome = true) → (l.filterMap g).length = l.length
  | [], _ => rfl
  | x :: l, h => by
    obtain ⟨y, hy⟩ := Option.isSome_iff_exists.1 (h x (List.mem_cons_self x l))
    rw [List.filterMap_cons, hy]
    simp only [List.length_cons]
    rw [length_filterMap_of_isSome g l (fun z hz => h z (List.mem_cons_of_mem x hz))]

theorem getLast?_filter_cons {α : Type} (p : α → Bool) (v : α) (rest : List α) :
    ((v :: rest).filter p).getLast? =
      match (rest.filter p).getLast? with
      | some c => some c
      | none => if p v = true then some v else none := by
  rw [List.filter_cons]
  by_cases hv : p v = true
  · rw [if_pos hv, if_pos hv, List.getLast?_cons]
    cases List.getLast? (List.filter p rest) <;> rfl
  · rw [if_neg hv, if_neg hv]
    cases List.getLast? (List.filter p rest) <;> rfl

theorem parse_fat_loop_info (srt : SortAlgo) :
    ∀ (arches : List macho.FatArch) (acc : tbd.Tbd_list),
      (∀ v ∈ arches, (parse_macho srt v.File).isSome = true) →
      ∃ t, parse_fat_loop srt arches acc = some t ∧
        match lastParsed srt arches with
        | some v => ∀ r, parse_macho srt v.File = some r →
            r.info = [t.Version, t.Install_name, t.CompVersion]
        | none => t.Version = acc.Version ∧ t.Install_name = acc.Install_name ∧
            t.CompVersion = acc.CompVersion
  | [], acc, _ => ⟨acc, rfl, rfl, rfl, rfl⟩
  | v :: rest, acc, h => by
    have hrest : ∀ u ∈ rest, (parse_macho srt u.File).isSome = true :=
      fun u hu => h u (List.mem_cons_of_mem v hu)
    obtain ⟨r, hr⟩ := Option.isSome_iff_exists.1 (h v (List.mem_cons_self v rest))
    cases herr : r.err with
    | some e =>
      have hv : parsedOk srt v = false := by simp [parsedOk, hr, herr]
      obtain ⟨t, ht, hti⟩ := parse_fat_loop_info srt rest acc hrest
      refine ⟨t, ?_, ?_⟩
      · rw [parse_fat_loop, hr]
        simp only [herr]
        exact ht
      · rw [lastParsed, getLast?_filter_cons, hv]
        cases hl : (rest.filter (parsedOk srt)).getLast? with
        | some c => rw [lastParsed, hl] at hti; exact hti
        | none => rw [lastParsed, hl] at hti; simpa using hti
    | none =>
      have hv : parsedOk srt v = true := by simp [parsedOk, hr, herr]
      have hcpu : cpu_type v.File ≠ str "uns" := by
        intro hu
        rw [parse_macho_uns srt v.File hu] at hr
        cases hr
        simp at herr
      obtain ⟨_, i0, i1, i2, hinfo⟩ := parse_macho_supported_shape srt v.File r hcpu hr
      obtain ⟨t, ht, hti⟩ := parse_fat_loop_info srt rest
        { acc with Archs := acc.Archs ++ [r.arch], Install_name := i1, Version := i0,
                   CompVersion := i2 } hrest
      refine ⟨t, ?_, ?_⟩
      · rw [parse_fat_loop, hr]
        simp only [herr, hinfo, List.getElem?_cons_zero, List.getElem?_cons_succ]
        exact ht
      · rw [lastParsed, getLast?_filter_cons, hv]
        cases hl : (rest.filter (parsedOk srt)).getLast? with
        | some c => rw [lastParsed, hl] at hti; exact hti
        | none =>
          rw [lastParsed, hl] at hti
          obtain ⟨h0, h1, h2⟩ := hti
          intro r' hr'
          rw [hr] at hr'
          cases hr'
          rw [hinfo, h0, h1, h2]

/-! ## Architecture and magic number -/

theorem cpu_type_eq_archName (f : macho.File) : cpu_type f = archName f.Cpu f.SubCpu := by
  have h1 : macho.Cpu386 = 7 := rfl
  have h2 : macho.CpuAmd64 = 0x01000007 := by decide
  have h3 : macho.CpuArm = 12 := rfl
  have h4 : arm64 = 16777228 := rfl
  unfold cpu_type archName
  rw [h1, h2, h3, h4]
  split_ifs <;> first | rfl | omega

theorem archName_uns_iff (cpu sub : Nat) :
    archName cpu sub = str "uns" ↔ isSupportedPair cpu sub = false := by
  unfold archName isSupportedPair
  rw [decide_eq_false_iff_not]
  split_ifs with h1 h2 h3 h4 h5 h6
  · exact ⟨fun h => absurd h (by decide), fun h => absurd (Or.inl h1) h⟩
  · exact ⟨fun h => absurd h (by decide), fun h => absurd (Or.inr (Or.inl h2)) h⟩
  · exact ⟨fun h => absurd h (by decide), fun h => absurd (Or.inr (Or.inr (Or.inl h3))) h⟩
  · exact ⟨fun h => absurd h (by decide),
      fun h => absurd (Or.inr (Or.inr (Or.inr ⟨h4.1, Or.inl h4.2⟩))) h⟩
  · exact ⟨fun h => absurd h (by decide),
      fun h => absurd (Or.inr (Or.inr (Or.inr ⟨h5.1, Or.inr (Or.inl h5.2)⟩))) h⟩
  · exact ⟨fun h => absurd h (by decide),
      fun h => absurd (Or.inr (Or.inr (Or.inr ⟨h6.1, Or.inr (Or.inr h6.2)⟩))) h⟩
  · refine ⟨fun _ => ?_, fun _ => rfl⟩
    rintro (h | h | h | ⟨hc, hs | hs | hs⟩)
    · exact h1 h
    · exact h2 h
    · exact h3 h
    · exact h4 ⟨hc, hs⟩
    · exact h5 ⟨hc, hs⟩
    · exact h6 ⟨hc, hs⟩

theorem archName_mem (cpu sub : Nat) :
    archName cpu sub ∈
      [str "i386", str "x86_64", str "armv6", str "armv7", str "armv7s", str "arm64",
        str "uns"] := by
  unfold archName
  split_ifs <;> simp

theorem parse_macho_err_iff (srt : SortAlgo) (f : macho.File) :
    (∃ r, parse_macho srt f = some r ∧ r.err ≠ none) ↔ cpu_type f = str "uns" := by
  constructor
  · rintro ⟨r, hr, he⟩
    by_contra hcpu
    exact he (parse_macho_supported_shape srt f r hcpu hr).1
  · intro h
    exact ⟨_, parse_macho_uns srt f h, by simp⟩

theorem magic_type_zero_iff (m : Nat) :
    magic_type m = 0 ↔ m ≠ 0xfeedface ∧ m ≠ 0xfeedfacf ∧ m ≠ 0xcafebabe := by
  have h1 : macho.Magic32 = 0xfeedface := rfl
  have h2 : macho.Magic64 = 0xfeedfacf := rfl
  have h3 : macho.MagicFat = 0xcafebabe := rfl
  unfold magic_type
  rw [h1, h2, h3]
  split_ifs with a b c
  · simp [a]
  · simp [b]
  · simp [c]
  · simp [a, b, c]

theorem and_fffffffe (x : Nat) (hx : x < 2 ^ 32) : x &&& 0xfffffffe = 2 * (x / 2) := by
  have hdiv : (x &&& 0xfffffffe) / 2 = x / 2 := by
    rw [Nat.and_div_two]
    have h31 : (0xfffffffe : Nat) / 2 = 2 ^ 31 - 1 := by norm_num
    rw [h31, Nat.and_pow_two_sub_one_eq_mod, Nat.mod_eq_of_lt]
    omega
  have hmod : (x &&& 0xfffffffe) % 2 = 0 := by
    have h := @Nat.and_mod_two_eq_one x 0xfffffffe
    have h0 : ¬ ((0xfffffffe : Nat) % 2 = 1) := by norm_num
    have h1 : ¬ ((x &&& 0xfffffffe) % 2 = 1) := fun hc => h0 (h.1 hc).2
    omega
  omega

/-- The magic test of `NewFile` accepts exactly the two thin magic numbers. -/
theorem thin_magic_iff (x : Nat) (hx : x < 2 ^ 32) :
    macho.Magic32 &&& 0xfffffffe = x &&& 0xfffffffe ↔ x = 0xfeedface ∨ x = 0xfeedfacf := by
  have h1 : macho.Magic32 &&& 0xfffffffe = 0xfeedface := by decide
  rw [h1, and_fffffffe x hx]
  omega

theorem macho_Open_unrecognized (decode : binary.ByteOrder → List Byte → Option macho.File)
    (image : List Byte) (h : magicUnrecognized image) : macho.Open decode image = none := by
  have hb := (magic_type_zero_iff _).1 (h .BigEndian)
  have hl := (magic_type_zero_iff _).1 (h .LittleEndian)
  unfold macho.Open
  dsimp only
  split_ifs with h4 hbe hle
  · rfl
  · rcases (thin_magic_iff _ (Uint32_lt _ _)).1 hbe with e | e
    · exact absurd e hb.1
    · exact absurd e hb.2.1
  · rcases (thin_magic_iff _ (Uint32_lt _ _)).1 hle with e | e
    · exact absurd e hl.1
    · exact absurd e hl.2.1
  · rfl

theorem macho_OpenFat_unrecognized (decodeFat : List Byte → Option macho.FatFile)
    (image : List Byte) (h : magicUnrecognized image) : macho.OpenFat decodeFat image = none := by
  have hb := (magic_type_zero_iff _).1 (h .BigEndian)
  unfold macho.OpenFat
  split_ifs with h4 hfat
  · rfl
  · rfl
  · exact absurd (not_not.1 hfat) hb.2.2

/-- Every file `macho.Open` returns carries a thin magic number. -/
theorem macho_Open_magic (decode : binary.ByteOrder → List Byte → Option macho.File)
    (image : List Byte) (f : macho.File) (h : macho.Open decode image = some f) :
    magic_type f.Magic = 32 ∨ magic_type f.Magic = 64 := by
  unfold macho.Open at h
  dsimp only at h
  split_ifs at h with h4 hbe hle
  · obtain ⟨g, _, rfl⟩ := Option.map_eq_some'.1 h
    rcases (thin_magic_iff _ (Uint32_lt _ _)).1 hbe with e | e
    · left; show magic_type (binary.ByteOrder.BigEndian.Uint32 _) = 32; rw [e]; rfl
    · right; show magic_type (binary.ByteOrder.BigEndian.Uint32 _) = 64; rw [e]; rfl
  · obtain ⟨g, _, rfl⟩ := Option.map_eq_some'.1 h
    rcases (thin_magic_iff _ (Uint32_lt _ _)).1 hle with e | e
    · left; show magic_type (binary.ByteOrder.LittleEndian.Uint32 _) = 32; rw [e]; rfl
    · right; show magic_type (binary.ByteOrder.LittleEndian.Uint32 _) = 64; rw [e]; rfl

theorem junkImage_unrecognized : magicUnrecognized junkImage := by
  intro bo
  cases bo <;> decide

/-! ## C1 -/

/-- C1: for a slice with a supported architecture and a symbol table (and load
commands whose walk ends), `parse_macho` returns a record whose exported-symbol,
class and instance-variable lists are each non-decreasing: every adjacent pair
`a`, `b` satisfies `a <= b` in byte-wise string order. -/
theorem parse_macho_name_lists_sorted (srt : SortAlgo) (f : macho.File)
    (syms : List macho.Symbol) (w : WalkState) (hcpu : cpu_type f ≠ str "uns")
    (hsym : f.Symtab = some syms)
    (hw : walk f.ByteOrder f.Loads WalkState.init = some w) :
    ∃ r, parse_macho srt f = some r ∧ r.err = none ∧
      r.arch.Symbols.Chain' StrLE ∧ r.arch.Classes.Chain' StrLE ∧
      r.arch.Ivars.Chain' StrLE :=
  ⟨_, parse_macho_ok srt f syms w hcpu hsym hw, rfl, sort_Strings_chain _,
    sort_Strings_chain _, sort_Strings_chain _⟩

theorem parse_macho_name_lists_sorted_witness :
    ∃ r, parse_macho sortInsertion exFile = some r ∧ r.err = none ∧
      r.arch.Symbols.Chain' StrLE ∧ r.arch.Classes.Chain' StrLE ∧
      r.arch.Ivars.Chain' StrLE :=
  parse_macho_name_lists_sorted sortInsertion exFile
    [⟨str "_zeta", 0x0f⟩, ⟨str "_OBJC_CLASS_$_Foo", 0x0f⟩, ⟨str "_alpha", 0x0f⟩,
      ⟨str "_OBJC_IVAR_$_Foo._x", 0x0f⟩, ⟨str "_local", 0x0e⟩, ⟨str "_OBJC_METACLASS_$_Foo", 0x0f⟩,
      ⟨str "_OBJC_CLASS_$_Bar", 0x0f⟩]
    { version := str "2.48.0", compatibility_version := str "1.0.0",
      path := str "/usr/lib/liby.dylib", real_reexports := [str "/usr/lib/liby.dylib"] }
    (by decide) (by decide) (by decide)

/-! ## C2 -/

/-- C2 (the code departs from it): in `bugFile` the last, and only,
dylib-identification command names `/usr/lib/libA.dylib`, yet the install name
`parse_macho` returns is `/usr/lib/libB.dylib`, the path of the re-export command
that follows it: the re-export branch assigns the same variable `path`. -/
theorem parse_macho_install_name_overwritten :
    (lastDylibId .LittleEndian bugFile.Loads).map (cmdNameString .LittleEndian)
        = some (str "/usr/lib/libA.dylib") ∧
      ∃ r, parse_macho sortInsertion bugFile = some r ∧ r.err = none ∧
        r.info[1]? = some (str "/usr/lib/libB.dylib") := by
  refine ⟨by decide, _, rfl, ?_, ?_⟩ <;> decide

/-! ## C3 -/

/-- C3: when the load commands contain a decodable dylib-identification command
(and the walk ends), the version and compatibility-version strings returned by
`parse_macho` are the `MAJOR.MINOR.PATCH` renderings of header bytes 16..19 and
20..23, read in the byte order of the slice, of the last such command `c`; they
depend on nothing else. -/
theorem parse_macho_versions_of_last_id (srt : SortAlgo) (f : macho.File)
    (syms : List macho.Symbol) (w : WalkState) (c : macho.Load)
    (hcpu : cpu_type f ≠ str "uns") (hsym : f.Symtab = some syms)
    (hw : walk f.ByteOrder f.Loads WalkState.init = some w)
    (hc : lastDylibId f.ByteOrder f.Loads = some c) :
    ∃ r, parse_macho srt f = some r ∧ r.err = none ∧
      r.info[0]? = some (renderVersion (hdrCurrentVersion f.ByteOrder c)) ∧
      r.info[2]? = some (renderVersion (hdrCompatVersion f.ByteOrder c)) := by
  refine ⟨_, parse_macho_ok srt f syms w hcpu hsym hw, rfl, ?_, ?_⟩
  · have hv := walk_versions f.ByteOrder f.Loads _ w hw
    rw [hc] at hv
    have h1 : w.version = ver (hdrCurrentVersion f.ByteOrder c) := congrArg Prod.fst hv
    simp only [List.getElem?_cons_zero, h1]
    exact congrArg some (ver_eq_renderVersion _ (Uint32_lt _ _))
  · have hv := walk_versions f.ByteOrder f.Loads _ w hw
    rw [hc] at hv
    have h2 : w.compatibility_version = ver (hdrCompatVersion f.ByteOrder c) :=
      congrArg Prod.snd hv
    simp only [List.getElem?_cons_succ, List.getElem?_cons_zero, h2]
    exact congrArg some (ver_eq_renderVersion _ (Uint32_lt _ _))

theorem parse_macho_versions_of_last_id_witness :
    ∃ r, parse_macho sortInsertion exFile = some r ∧ r.err = none ∧
      r.info[0]? = some (renderVersion (hdrCurrentVersion exFile.ByteOrder
        (mkDylibCmd LoadDylibIdCmd 0x00023000 0x00010000 (str "/usr/lib/libx.dylib")))) ∧
      r.info[2]? = some (renderVersion (hdrCompatVersion exFile.ByteOrder
        (mkDylibCmd LoadDylibIdCmd 0x00023000 0x00010000 (str "/usr/lib/libx.dylib")))) :=
  parse_macho_versions_of_last_id sortInsertion exFile _ _ _ (by decide) rfl rfl (by decide)

/-! ## C4 -/

/-- C4: for every load-command list (whose walk ends), the re-export list
returned by `parse_macho` is ordered by non-increasing length: every adjacent pair
`a`, `b` satisfies `len(a) >= len(b)`; `sort.Sort` is any procedure that meets its
documented contract. -/
theorem parse_macho_reexports_by_length (srt : SortAlgo) (hsrt : sort.SortSpec srt)
    (f : macho.File) (syms : List macho.Symbol) (w : WalkState)
    (hcpu : cpu_type f ≠ str "uns") (hsym : f.Symtab = some syms)
    (hw : walk f.ByteOrder f.Loads WalkState.init = some w) :
    ∃ r, parse_macho srt f = some r ∧ r.err = none ∧
      r.arch.ReExports.Chain' (fun a b => a.length ≥ b.length) := by
  refine ⟨_, parse_macho_ok srt f syms w hcpu hsym hw, rfl, ?_⟩
  dsimp only
  split_ifs with hlen
  · have hp := (hsrt ByLength.Less ByLength_isLess w.real_reexports).2
    refine List.Pairwise.chain' (hp.imp ?_)
    intro a b hab
    simp only [ByLength.Less, decide_eq_false_iff_not] at hab
    omega
  · have : w.real_reexports = [] := List.eq_nil_of_length_eq_zero (by omega)
    rw [this]
    exact List.chain'_nil

theorem parse_macho_reexports_by_length_witness :
    reexportNames .LittleEndian mixedReexFile.Loads
        = [str "bb", str "a", str "dddd", str "ccc"] ∧
      (parse_macho sortInsertion mixedReexFile).map (fun r => r.arch.ReExports)
        = some [str "dddd", str "ccc", str "bb", str "a"] ∧
      ∃ r, parse_macho sortInsertion mixedReexFile = some r ∧ r.err = none ∧
        r.arch.ReExports.Chain' (fun a b => a.length ≥ b.length) :=
  ⟨by decide, by decide,
    parse_macho_reexports_by_length sortInsertion sortInsertion_spec mixedReexFile _ _
      (by decide) rfl rfl⟩

/-! ## C5 -/

/-- C5, counterexample: with a `sort.Sort` that meets its contract (the path Go
up to release 1.18 takes on short slices), seven re-exports encountered as `a`, `bb`,
`cc`, `dd`, `ee`, `ff`, `gg` are returned as `gg`, `bb`, `cc`, `dd`, `ee`, `ff`,
`a`: `gg` has moved in front of the five other paths of its length. -/
theorem reexports_encounter_order_broken :
    sort.SortSpec sortShell ∧
      reexportNames .LittleEndian reexFile.Loads
        = [str "a", str "bb", str "cc", str "dd", str "ee", str "ff", str "gg"] ∧
      ∃ r, parse_macho sortShell reexFile = some r ∧ r.err = none ∧
        r.arch.ReExports = [str "gg", str "bb", str "cc", str "dd", str "ee", str "ff", str "a"] ∧
        ¬ KeepsEncounterOrder (reexportNames .LittleEndian reexFile.Loads) r.arch.ReExports := by
  refine ⟨sortShell_spec, by decide, _, rfl, by decide, by decide, ?_⟩
  intro h
  exact absurd (h 2) (by decide)

/-- C5 (amended): for every load-command list (whose walk ends) and every
`sort.Sort` that meets its contract, the returned re-export paths of any one
length are a rearrangement of the paths of that length in the order their
commands were encountered; which rearrangement is not determined. -/
theorem parse_macho_reexports_groups (srt : SortAlgo) (hsrt : sort.SortSpec srt)
    (f : macho.File) (syms : List macho.Symbol) (w : WalkState)
    (hcpu : cpu_type f ≠ str "uns") (hsym : f.Symtab = some syms)
    (hw : walk f.ByteOrder f.Loads WalkState.init = some w) :
    ∃ r, parse_macho srt f = some r ∧ r.err = none ∧
      ∀ n : Nat, (r.arch.ReExports.filter (fun s => decide (s.length = n))).Perm
        ((reexportNames f.ByteOrder f.Loads).filter (fun s => decide (s.length = n))) := by
  refine ⟨_, parse_macho_ok srt f syms w hcpu hsym hw, rfl, fun n => List.Perm.filter _ ?_⟩
  have hre : w.real_reexports = reexportNames f.ByteOrder f.Loads := by
    rw [walk_reexports f.ByteOrder f.Loads _ w hw]; rfl
  dsimp only
  rw [← hre]
  split_ifs with hlen
  · exact (hsrt ByLength.Less ByLength_isLess w.real_reexports).1
  · exact List.Perm.refl _

theorem parse_macho_reexports_groups_witness :
    ∃ r, parse_macho sortShell reexFile = some r ∧ r.err = none ∧
      ∀ n : Nat, (r.arch.ReExports.filter (fun s => decide (s.length = n))).Perm
        ((reexportNames reexFile.ByteOrder reexFile.Loads).filter
          (fun s => decide (s.length = n))) :=
  parse_macho_reexports_groups sortShell sortShell_spec reexFile _ _ (by decide) rfl rfl

/-! ## C6 -/

/-- C6: for every 32-bit raw version `V`, `ver V` is the decimal rendering of
`V >> 16`, a dot, that of `(V >> 8) & 0xFF`, a dot, and that of `V & 0xFF`; these
are bits 16-31, 8-15 and 0-7 of `V`; a decimal rendering denotes the number
rendered; and `ver 0x00023000` is `2.48.0`. -/
theorem ver_major_minor_patch (V : Nat) (hV : V < 2 ^ 32) :
    ver V = fmt_d (V >>> 16) ++ str "." ++ fmt_d ((V >>> 8) &&& 0xFF) ++ str "."
        ++ fmt_d (V &&& 0xFF) ∧
      ver V = renderVersion V ∧ (∀ n : Nat, decimalValue (fmt_d n) = n) ∧
      ver 0x00023000 = str "2.48.0" :=
  ⟨rfl, ver_eq_renderVersion V hV, decimalValue_fmt_d, by decide⟩

theorem ver_major_minor_patch_witness :
    ver 0x00023000 = fmt_d (0x00023000 >>> 16) ++ str "." ++ fmt_d ((0x00023000 >>> 8) &&& 0xFF)
        ++ str "." ++ fmt_d (0x00023000 &&& 0xFF) ∧
      ver 0x00023000 = renderVersion 0x00023000 ∧ (∀ n : Nat, decimalValue (fmt_d n) = n) ∧
      ver 0x00023000 = str "2.48.0" :=
  ver_major_minor_patch 0x00023000 (by decide)

/-! ## C7 -/

/-- C7: a symbol `v` with the defined-in-section and external flags whose name
contains `_OBJC_CLASS` adds to the class list its name with every occurrence of
`_OBJC_CLASS_$` removed, and nothing to the exported-symbol, instance-variable
and weak lists: compared with the table without `v`, the class list gains
exactly that entry and the three other lists are the same. The name
`_OBJC_CLASS_$_Foo` gives the class `_Foo`. -/
theorem class_symbol_classified (srt : SortAlgo) (f : macho.File)
    (pre post : List macho.Symbol) (v : macho.Symbol) (w : WalkState)
    (hcpu : cpu_type f ≠ str "uns") (hsym : f.Symtab = some (pre ++ v :: post))
    (hw : walk f.ByteOrder f.Loads WalkState.init = some w)
    (hflag : v.Type_ &&& N_TYPE = N_SECT ∧ v.Type_ &&& N_EXT = N_EXT)
    (hname : strings.Contains v.Name (str "_OBJC_CLASS") = true) :
    ∃ r r', parse_macho srt f = some r ∧
      parse_macho srt { f with Symtab := some (pre ++ post) } = some r' ∧
      r.err = none ∧ r'.err = none ∧
      r.arch.Classes.Perm (strings.Replace v.Name (str "_OBJC_CLASS_$") [] :: r'.arch.Classes) ∧
      r.arch.Symbols = r'.arch.Symbols ∧ r.arch.Ivars = r'.arch.Ivars ∧
      r.arch.Weak = r'.arch.Weak ∧
      strings.Replace (str "_OBJC_CLASS_$_Foo") (str "_OBJC_CLASS_$") [] = str "_Foo" := by
  refine ⟨_, _, parse_macho_ok srt f _ w hcpu hsym hw,
    parse_macho_ok srt { f with Symtab := some (pre ++ post) } (pre ++ post) w hcpu rfl hw,
    rfl, rfl, ?_, ?_, ?_, ?_, by decide⟩
  · dsimp only
    rw [classify_insert, classify_append, classifyStep_class v hflag hname]
    exact sort_Strings_insert_perm _ _ _
  all_goals
    dsimp only
    rw [classify_insert, classify_append, classifyStep_class v hflag hname]
    simp only [List.append_nil]

theorem class_symbol_classified_witness :
    ∃ r r', parse_macho sortInsertion (mkFile [] [⟨str "_a", 0x0f⟩, ⟨str "_OBJC_CLASS_$_Foo", 0x0f⟩])
        = some r ∧
      parse_macho sortInsertion
        { mkFile [] [⟨str "_a", 0x0f⟩, ⟨str "_OBJC_CLASS_$_Foo", 0x0f⟩] with
          Symtab := some ([⟨str "_a", 0x0f⟩] ++ []) } = some r' ∧
      r.err = none ∧ r'.err = none ∧
      r.arch.Classes.Perm
        (strings.Replace (⟨str "_OBJC_CLASS_$_Foo", 0x0f⟩ : macho.Symbol).Name
          (str "_OBJC_CLASS_$") [] :: r'.arch.Classes) ∧
      r.arch.Symbols = r'.arch.Symbols ∧ r.arch.Ivars = r'.arch.Ivars ∧
      r.arch.Weak = r'.arch.Weak ∧
      strings.Replace (str "_OBJC_CLASS_$_Foo") (str "_OBJC_CLASS_$") [] = str "_Foo" :=
  class_symbol_classified sortInsertion
    (mkFile [] [⟨str "_a", 0x0f⟩, ⟨str "_OBJC_CLASS_$_Foo", 0x0f⟩])
    [⟨str "_a", 0x0f⟩] [] ⟨str "_OBJC_CLASS_$_Foo", 0x0f⟩ _ (by decide) rfl rfl
    (by decide) (by decide)

/-! ## C8 -/

/-- C8, counterexample: the symbol `_OBJC_METACLASS_$_MY_OBJC_CLASSIFIER` has a
name that contains `_OBJC_METACLASS`, and it is emitted, in the class list: the
test for `_OBJC_CLASS` comes first and its name contains that too. -/
theorem metaclass_name_emitted_as_class :
    strings.Contains (str "_OBJC_METACLASS_$_MY_OBJC_CLASSIFIER") (str "_OBJC_METACLASS") = true ∧
      ∃ r, parse_macho sortInsertion metaFile = some r ∧ r.err = none ∧
        r.arch.Classes = [str "_OBJC_METACLASS_$_MY_OBJC_CLASSIFIER"] := by
  refine ⟨by decide, _, rfl, ?_, ?_⟩ <;> decide

/-- C8 (amended): a symbol whose name contains `_OBJC_METACLASS` and neither
`_OBJC_CLASS` nor `_OBJC_IVAR`, with any flags, adds no entry to any list:
`parse_macho` returns the same with it as without it. `_OBJC_METACLASS_$_Foo` is
such a name. -/
theorem metaclass_symbol_discarded (srt : SortAlgo) (f : macho.File)
    (pre post : List macho.Symbol) (v : macho.Symbol) (w : WalkState)
    (hcpu : cpu_type f ≠ str "uns") (hsym : f.Symtab = some (pre ++ v :: post))
    (hw : walk f.ByteOrder f.Loads WalkState.init = some w)
    (hmeta : strings.Contains v.Name (str "_OBJC_METACLASS") = true)
    (hclass : strings.Contains v.Name (str "_OBJC_CLASS") = false)
    (hivar : strings.Contains v.Name (str "_OBJC_IVAR") = false) :
    ∃ r, parse_macho srt f = some r ∧
      parse_macho srt { f with Symtab := some (pre ++ post) } = some r ∧ r.err = none := by
  have hc : classify (pre ++ post) = classify (pre ++ v :: post) := by
    rw [classify_insert, classify_append, classifyStep_metaclass v hmeta hclass hivar]
    simp
  refine ⟨_, parse_macho_ok srt f _ w hcpu hsym hw, ?_, rfl⟩
  rw [parse_macho_congr_symtab srt f _ _ hsym hc]
  exact parse_macho_ok srt f _ w hcpu hsym hw

theorem metaclass_symbol_discarded_witness :
    ∃ r, parse_macho sortInsertion exFile = some r ∧
      parse_macho sortInsertion
        { exFile with
          Symtab := some
            ([⟨str "_zeta", 0x0f⟩, ⟨str "_OBJC_CLASS_$_Foo", 0x0f⟩, ⟨str "_alpha", 0x0f⟩,
              ⟨str "_OBJC_IVAR_$_Foo._x", 0x0f⟩, ⟨str "_local", 0x0e⟩]
              ++ [⟨str "_OBJC_CLASS_$_Bar", 0x0f⟩]) } = some r ∧ r.err = none :=
  metaclass_symbol_discarded sortInsertion exFile
    [⟨str "_zeta", 0x0f⟩, ⟨str "_OBJC_CLASS_$_Foo", 0x0f⟩, ⟨str "_alpha", 0x0f⟩,
      ⟨str "_OBJC_IVAR_$_Foo._x", 0x0f⟩, ⟨str "_local", 0x0e⟩]
    [⟨str "_OBJC_CLASS_$_Bar", 0x0f⟩] ⟨str "_OBJC_METACLASS_$_Foo", 0x0f⟩ _
    (by decide) rfl rfl (by decide) (by decide) (by decide)

/-! ## C9 -/

/-- C9: only symbols with `(type & 0x0e) == 0x0e`, `(type & 0x01) == 0x01` and a
non-empty name contribute: removing every other symbol from the symbol table
leaves what `parse_macho` returns, the four lists included, unchanged. -/
theorem unconsidered_symbols_ignored (srt : SortAlgo) (f : macho.File)
    (syms : List macho.Symbol) (w : WalkState)
    (hcpu : cpu_type f ≠ str "uns") (hsym : f.Symtab = some syms)
    (hw : walk f.ByteOrder f.Loads WalkState.init = some w) :
    ∃ r, parse_macho srt f = some r ∧
      parse_macho srt { f with Symtab := some (syms.filter isConsidered) } = some r ∧
      r.err = none := by
  refine ⟨_, parse_macho_ok srt f _ w hcpu hsym hw, ?_, rfl⟩
  rw [parse_macho_congr_symtab srt f _ _ hsym (classify_filter_considered syms)]
  exact parse_macho_ok srt f _ w hcpu hsym hw

theorem unconsidered_symbols_ignored_witness :
    ∃ r, parse_macho sortInsertion exFile = some r ∧
      parse_macho sortInsertion
        { exFile with
          Symtab := some
            (List.filter isConsidered
              [⟨str "_zeta", 0x0f⟩, ⟨str "_OBJC_CLASS_$_Foo", 0x0f⟩, ⟨str "_alpha", 0x0f⟩,
                ⟨str "_OBJC_IVAR_$_Foo._x", 0x0f⟩, ⟨str "_local", 0x0e⟩,
                ⟨str "_OBJC_METACLASS_$_Foo", 0x0f⟩, ⟨str "_OBJC_CLASS_$_Bar", 0x0f⟩]) }
        = some r ∧
      r.err = none :=
  unconsidered_symbols_ignored sortInsertion exFile _ _ (by decide) rfl rfl

/-! ## C10 -/

/-- C10: for a fat container (whose supported slices are parsed without a
panic), `parse_fat` returns, and its record list is exactly the records
`parse_macho` produces for the slices with a supported architecture, in the
order of the slices; there is one record per supported slice, so one recognized
and one unrecognized slice give a list of length 1. -/
theorem parse_fat_archs (srt : SortAlgo) (f : macho.FatFile)
    (h : ∀ v ∈ f.Arches, isSupported v = true → (parse_macho srt v.File).isSome = true) :
    ∃ t, parse_fat srt f = some t ∧ t.Archs = supportedRecords srt f.Arches ∧
      t.Archs.length = (f.Arches.filter isSupported).length := by
  obtain ⟨t, ht, hta⟩ := parse_fat_loop_archs srt f.Arches {} h
  have hta' : t.Archs = supportedRecords srt f.Arches := by simpa using hta
  refine ⟨t, ht, hta', ?_⟩
  rw [hta', supportedRecords]
  refine length_filterMap_of_isSome _ _ (fun v hv => ?_)
  rw [List.mem_filter] at hv
  rw [Option.isSome_map']
  exact h v hv.1 hv.2

theorem parse_fat_archs_witness :
    ∃ t, parse_fat sortInsertion fatFile = some t ∧
      t.Archs = supportedRecords sortInsertion fatFile.Arches ∧ t.Archs.length = 1 := by
  obtain ⟨t, h1, h2, h3⟩ := parse_fat_archs sortInsertion fatFile (by decide)
  exact ⟨t, h1, h2, h3.trans (by decide)⟩

/-! ## C11 -/

/-- C11: for a fat container (whose slices are parsed without a panic) with at
least one successfully parsed slice, the version, install name and compatibility
version of the descriptor `parse_fat` returns are those `parse_macho` returns
for the last successfully parsed slice `v`; slices that fail or come earlier do
not show in them. -/
theorem parse_fat_last_slice_wins (srt : SortAlgo) (f : macho.FatFile) (v : macho.FatArch)
    (r : ParseResult)
    (hret : ∀ u ∈ f.Arches, (parse_macho srt u.File).isSome = true)
    (hlast : lastParsed srt f.Arches = some v) (hr : parse_macho srt v.File = some r) :
    ∃ t, parse_fat srt f = some t ∧ r.info = [t.Version, t.Install_name, t.CompVersion] := by
  obtain ⟨t, ht, hti⟩ := parse_fat_loop_info srt f.Arches {} hret
  rw [hlast] at hti
  exact ⟨t, ht, hti r hr⟩

theorem parse_fat_last_slice_wins_witness :
    ∃ t, parse_fat sortInsertion fatFile3 = some t ∧
      [str "1.0.0", str "/usr/lib/libB.dylib", str "1.0.0"]
        = [t.Version, t.Install_name, t.CompVersion] :=
  parse_fat_last_slice_wins sortInsertion fatFile3 ⟨{ bugFile with Cpu := arm64, SubCpu := 0 }⟩
    { arch :=
        { Name := str "arm64", ReExports := [str "/usr/lib/libB.dylib"] }
      info := [str "1.0.0", str "/usr/lib/libB.dylib", str "1.0.0"]
      err := none }
    (by decide) (by decide) (by decide)

/-! ## C12 -/

/-- C12: `cpu_type` returns a value of the closed set i386, x86_64, armv6,
armv7, armv7s, arm64, `uns`: i386 for CPU type 7, x86_64 for 0x01000007, arm64
for 16777228, armv6, armv7, armv7s for CPU type 12 with subtype 6, 9, 11, and
the unsupported marker `uns` for every other pair; `parse_macho` returns an error
exactly for those other pairs. -/
theorem cpu_type_closed_set (srt : SortAlgo) (f : macho.File) :
    cpu_type f = archName f.Cpu f.SubCpu ∧
      cpu_type f ∈
        [str "i386", str "x86_64", str "armv6", str "armv7", str "armv7s", str "arm64",
          str "uns"] ∧
      (cpu_type f = str "uns" ↔ isSupportedPair f.Cpu f.SubCpu = false) ∧
      ((∃ r, parse_macho srt f = some r ∧ r.err ≠ none) ↔
        isSupportedPair f.Cpu f.SubCpu = false) := by
  have h := cpu_type_eq_archName f
  refine ⟨h, ?_, ?_, ?_⟩
  · rw [h]; exact archName_mem _ _
  · rw [h]; exact archName_uns_iff _ _
  · rw [parse_macho_err_iff, h]; exact archName_uns_iff _ _

/-! ## C13 -/

/-- C13 (the code departs from it): on an x86_64 slice, a dylib-identification
command whose name offset points past the command makes `parse_macho` panic, and
so does a command whose declared length exceeds its bytes; only the command too
short for the 24-byte header is skipped, leaving the defaults. -/
theorem walk_aborts_on_malformed :
    parse_macho sortInsertion (mkFile [badNameCmd] []) = none ∧
      parse_macho sortInsertion (mkFile [overlongCmd] []) = none ∧
      cpu_type (mkFile [badNameCmd] []) = str "x86_64" ∧
      ∃ r, parse_macho sortInsertion (mkFile [shortIdCmd] []) = some r ∧ r.err = none ∧
        r.info = [str "275.0", [], []] := by
  refine ⟨by decide, by decide, by decide, _, rfl, by decide, by decide⟩

/-! ## C14 -/

/-- C14: the symbol lists do not depend on the order of the symbol table: for a
symbol table `syms'` that is a permutation of `syms`, with the same architecture
and load commands, `parse_macho` returns the same record, hence the same
exported-symbol, class, instance-variable and weak lists. -/
theorem symbol_order_irrelevant (srt : SortAlgo) (f : macho.File)
    (syms syms' : List macho.Symbol) (w : WalkState)
    (hcpu : cpu_type f ≠ str "uns") (hsym : f.Symtab = some syms)
    (hw : walk f.ByteOrder f.Loads WalkState.init = some w)
    (hperm : syms'.Perm syms) :
    ∃ r, parse_macho srt f = some r ∧
      parse_macho srt { f with Symtab := some syms' } = some r ∧ r.err = none := by
  refine ⟨_, parse_macho_ok srt f syms w hcpu hsym hw, ?_, rfl⟩
  rw [parse_macho_ok srt { f with Symtab := some syms' } syms' w hcpu rfl hw]
  obtain ⟨h1, h2, h3, h4⟩ := classify_perm syms' syms hperm
  rw [sort_Strings_congr _ _ h1, sort_Strings_congr _ _ h2, sort_Strings_congr _ _ h3,
    sort_Strings_congr _ _ h4]
  rfl

theorem symbol_order_irrelevant_witness :
    ∃ r, parse_macho sortInsertion exFile = some r ∧
      parse_macho sortInsertion
        { exFile with
          Symtab := some
            (List.reverse
              [⟨str "_zeta", 0x0f⟩, ⟨str "_OBJC_CLASS_$_Foo", 0x0f⟩, ⟨str "_alpha", 0x0f⟩,
                ⟨str "_OBJC_IVAR_$_Foo._x", 0x0f⟩, ⟨str "_local", 0x0e⟩,
                ⟨str "_OBJC_METACLASS_$_Foo", 0x0f⟩, ⟨str "_OBJC_CLASS_$_Bar", 0x0f⟩]) }
        = some r ∧
      r.err = none :=
  symbol_order_irrelevant sortInsertion exFile _ _ _ (by decide) rfl rfl (List.reverse_perm _)

/-! ## C15 -/

/-- C15: an image whose magic number is none of the recognized values
(`magic_type` classifies it as unrecognized in whichever byte order its first
four bytes are read) is rejected by `macho.Open` and by `macho.OpenFat`,
whatever the rest of the image holds, so `macho_tbd` exits with status 1 and
produces no record. -/
theorem unrecognized_magic_rejected (srt : SortAlgo) (plt : GoString) (args : List GoString)
    (decode : binary.ByteOrder → List Byte → Option macho.File)
    (decodeFat : List Byte → Option macho.FatFile) (image : List Byte)
    (h : magicUnrecognized image) :
    macho.Open decode image = none ∧ macho.OpenFat decodeFat image = none ∧
      macho_tbd srt plt args (macho.Open decode image) (macho.OpenFat decodeFat image)
        = some (.exit 1) ∧
      ∀ l : tbd.Tbd_list,
        macho_tbd srt plt args (macho.Open decode image) (macho.OpenFat decodeFat image)
          ≠ some (.descriptor l) := by
  have h1 := macho_Open_unrecognized decode image h
  have h2 := macho_OpenFat_unrecognized decodeFat image h
  have h3 : macho_tbd srt plt args (macho.Open decode image) (macho.OpenFat decodeFat image)
      = some (.exit 1) := by
    rw [h1, h2]
    unfold macho_tbd
    split_ifs <;> rfl
  refine ⟨h1, h2, h3, fun l hl => ?_⟩
  rw [h3] at hl
  cases hl

theorem unrecognized_magic_rejected_witness :
    macho.Open (fun _ _ => some exFile) junkImage = none ∧
      macho.OpenFat (fun _ => some fatFile) junkImage = none ∧
      macho_tbd sortInsertion (str "ios") [str "libx.dylib"]
          (macho.Open (fun _ _ => some exFile) junkImage)
          (macho.OpenFat (fun _ => some fatFile) junkImage)
        = some (.exit 1) ∧
      ∀ l : tbd.Tbd_list,
        macho_tbd sortInsertion (str "ios") [str "libx.dylib"]
            (macho.Open (fun _ _ => some exFile) junkImage)
            (macho.OpenFat (fun _ => some fatFile) junkImage)
          ≠ some (.descriptor l) :=
  unrecognized_magic_rejected sortInsertion (str "ios") [str "libx.dylib"]
    (fun _ _ => some exFile) (fun _ => some fatFile) junkImage junkImage_unrecognized

/-! ## C16 -/

/-- C16: whatever the architecture, the symbol table and the load commands, the
weak-symbol list of the record `parse_macho` returns is empty. -/
theorem weak_list_empty (srt : SortAlgo) (f : macho.File) (r : ParseResult)
    (h : parse_macho srt f = some r) : r.arch.Weak = [] := by
  rcases parse_macho_cases srt f r h with ⟨_, hr⟩ | ⟨hcpu, syms, w, hsym, hw⟩
  · rw [hr]
  · rw [parse_macho_ok srt f syms w hcpu hsym hw] at h
    cases h
    dsimp only
    rw [classify_weak]
    rfl

theorem weak_list_empty_witness :
    ∃ r, parse_macho sortInsertion exFile = some r ∧ r.arch.Weak = [] :=
  ⟨_, rfl, weak_list_empty sortInsertion exFile _ rfl⟩

/-! ## C17 -/

/-- C17: every considered symbol is classified exactly once: the lengths of the
class, instance-variable and exported-symbol lists `parse_macho` returns add up
to the number of considered symbols minus the number of those discarded as
metaclasses (name with `_OBJC_METACLASS` and neither `_OBJC_CLASS` nor
`_OBJC_IVAR`). -/
theorem considered_symbols_counted (srt : SortAlgo) (f : macho.File)
    (syms : List macho.Symbol) (w : WalkState)
    (hcpu : cpu_type f ≠ str "uns") (hsym : f.Symtab = some syms)
    (hw : walk f.ByteOrder f.Loads WalkState.init = some w) :
    ∃ r, parse_macho srt f = some r ∧ r.err = none ∧
      r.arch.Classes.length + r.arch.Ivars.length + r.arch.Symbols.length
        = (syms.filter isConsidered).length
          - (syms.filter (fun v => isConsidered v && isDiscardedMetaclass v)).length ∧
      (syms.filter (fun v => isConsidered v && isDiscardedMetaclass v)).length
        ≤ (syms.filter isConsidered).length := by
  refine ⟨_, parse_macho_ok srt f syms w hcpu hsym hw, rfl, ?_, ?_⟩
  · dsimp only
    rw [(sort_Strings_perm _).length_eq, (sort_Strings_perm _).length_eq,
      (sort_Strings_perm _).length_eq]
    have := classify_count syms
    omega
  · have := classify_count syms
    omega

theorem considered_symbols_counted_witness :
    ∃ r, parse_macho sortInsertion exFile = some r ∧ r.err = none ∧
      r.arch.Classes.length + r.arch.Ivars.length + r.arch.Symbols.length = 6 - 1 ∧
      1 ≤ 6 := by
  obtain ⟨r, h1, h2, h3, h4⟩ :=
    considered_symbols_counted sortInsertion exFile _ _ (by decide) rfl rfl
  exact ⟨r, h1, h2, h3.trans (by decide), by decide⟩

/-! ## C18 -/

/-- C18: for every load-command list (whose walk ends) and every `sort.Sort`
that meets its contract, the re-export list `parse_macho` returns is a
permutation of the names of the decodable re-export-dylib commands: its length
is the number of those commands and every path occurs in it as often as among
them. -/
theorem reexports_permutation (srt : SortAlgo) (hsrt : sort.SortSpec srt)
    (f : macho.File) (syms : List macho.Symbol) (w : WalkState)
    (hcpu : cpu_type f ≠ str "uns") (hsym : f.Symtab = some syms)
    (hw : walk f.ByteOrder f.Loads WalkState.init = some w) :
    ∃ r, parse_macho srt f = some r ∧ r.err = none ∧
      r.arch.ReExports.Perm (reexportNames f.ByteOrder f.Loads) ∧
      r.arch.ReExports.length
        = (f.Loads.filter (isDecodable f.ByteOrder ReExportDylibCmd)).length ∧
      ∀ p : GoString, r.arch.ReExports.count p = (reexportNames f.ByteOrder f.Loads).count p := by
  have hre : w.real_reexports = reexportNames f.ByteOrder f.Loads := by
    rw [walk_reexports f.ByteOrder f.Loads _ w hw]; rfl
  have hperm : (if w.real_reexports.length > 0 then srt ByLength.Less w.real_reexports
      else w.real_reexports).Perm (reexportNames f.ByteOrder f.Loads) := by
    rw [← hre]
    split_ifs with hlen
    · exact (hsrt ByLength.Less ByLength_isLess w.real_reexports).1
    · exact List.Perm.refl _
  refine ⟨_, parse_macho_ok srt f syms w hcpu hsym hw, rfl, hperm, ?_, fun p => hperm.countP_eq _⟩
  dsimp only
  rw [hperm.length_eq, reexportNames, List.length_map]

theorem reexports_permutation_witness :
    ∃ r, parse_macho sortShell reexFile = some r ∧ r.err = none ∧
      r.arch.ReExports.Perm (reexportNames reexFile.ByteOrder reexFile.Loads) ∧
      r.arch.ReExports.length
        = (reexFile.Loads.filter (isDecodable reexFile.ByteOrder ReExportDylibCmd)).length ∧
      ∀ p : GoString,
        r.arch.ReExports.count p = (reexportNames reexFile.ByteOrder reexFile.Loads).count p :=
  reexports_permutation sortShell sortShell_spec reexFile _ _ (by decide) rfl rfl

/-! ## C19 -/

/-- C19: a load command `v` of a kind other than dylib-identification and
re-export-dylib, with its eight header bytes and a declared length that fits
its bytes, is ignored: with `v` inserted at any position of the load-command
list, `parse_macho` returns the same record and the same install name, version
and compatibility version as without it. -/
theorem other_commands_ignored (srt : SortAlgo) (f : macho.File)
    (pre post : List macho.Load) (v : macho.Load) (syms : List macho.Symbol) (w : WalkState)
    (hcpu : cpu_type f ≠ str "uns") (hsym : f.Symtab = some syms)
    (hloads : f.Loads = pre ++ post)
    (hw : walk f.ByteOrder f.Loads WalkState.init = some w)
    (hk1 : cmdKind f.ByteOrder v ≠ LoadDylibIdCmd)
    (hk2 : cmdKind f.ByteOrder v ≠ ReExportDylibCmd)
    (h8 : 8 ≤ v.Raw.elems.length) (hfit : cmdLen f.ByteOrder v ≤ v.Raw.elems.length) :
    ∃ r, parse_macho srt f = some r ∧
      parse_macho srt { f with Loads := pre ++ v :: post } = some r ∧ r.err = none := by
  refine ⟨_, parse_macho_ok srt f syms w hcpu hsym hw, ?_, rfl⟩
  have hw' : walk f.ByteOrder (pre ++ v :: post) WalkState.init = some w := by
    rw [walk_insert_other f.ByteOrder pre post v _ hk1 hk2 h8 hfit, ← hloads]
    exact hw
  exact parse_macho_ok srt { f with Loads := pre ++ v :: post } syms w hcpu hsym hw'

theorem other_commands_ignored_witness :
    ∃ r, parse_macho sortInsertion bugFile = some r ∧
      parse_macho sortInsertion
        { bugFile with
          Loads :=
            [mkDylibCmd LoadDylibIdCmd 0x00010000 0x00010000 (str "/usr/lib/libA.dylib")]
              ++ mkPlainCmd 0x19
                :: [mkDylibCmd ReExportDylibCmd 0 0 (str "/usr/lib/libB.dylib")] }
        = some r ∧
      r.err = none :=
  other_commands_ignored sortInsertion bugFile
    [mkDylibCmd LoadDylibIdCmd 0x00010000 0x00010000 (str "/usr/lib/libA.dylib")]
    [mkDylibCmd ReExportDylibCmd 0 0 (str "/usr/lib/libB.dylib")] (mkPlainCmd 0x19) _ _
    (by decide) rfl rfl rfl (by decide) (by decide) (by decide) (by decide)

/-! ## C20 -/

/-- C20: when the load commands of a supported slice contain no decodable
dylib-identification command (and the walk ends), `parse_macho` returns the
version `275.0` and the empty string as compatibility version, whatever
re-export and other commands there are. -/
theorem default_versions (srt : SortAlgo) (f : macho.File)
    (syms : List macho.Symbol) (w : WalkState)
    (hcpu : cpu_type f ≠ str "uns") (hsym : f.Symtab = some syms)
    (hw : walk f.ByteOrder f.Loads WalkState.init = some w)
    (hnone : lastDylibId f.ByteOrder f.Loads = none) :
    ∃ r, parse_macho srt f = some r ∧ r.err = none ∧
      r.info[0]? = some (str "275.0") ∧ r.info[2]? = some [] := by
  have hv := walk_versions f.ByteOrder f.Loads _ w hw
  rw [hnone] at hv
  have h1 : w.version = str "275.0" := congrArg Prod.fst hv
  have h2 : w.compatibility_version = [] := congrArg Prod.snd hv
  refine ⟨_, parse_macho_ok srt f syms w hcpu hsym hw, rfl, ?_, ?_⟩
  · simp only [List.getElem?_cons_zero, h1]
  · simp only [List.getElem?_cons_succ, List.getElem?_cons_zero, h2]

theorem default_versions_witness :
    ∃ r, parse_macho sortInsertion noIdFile = some r ∧ r.err = none ∧
      r.info[0]? = some (str "275.0") ∧ r.info[2]? = some [] :=
  default_versions sortInsertion noIdFile _ _ (by decide) rfl rfl (by decide)

end Machotbd
